import Mathlib

/-!
Verification of the core data structures of `samples_validator/utils.py`:
`TestExecutionResultMap` and `CodeSamplesTree`.

Both Python classes store their data in nested Python `dict`s.  A node of the
nesting maps path segments (strings) to child dicts, and the reserved string
key `"methods"` to a per-HTTP-method payload map whose keys are `HttpMethod`
enum members and whose values are payload objects (`CodeSample` or
`ApiTestResult`).  Child dicts are created as `defaultdict(dict)`, so
subscripting a missing key on them creates a fresh *plain* dict; subscripting a
missing key on a plain dict raises `KeyError`.

The embedding below models a Python dict as an insertion-ordered association
list (`Entries`) whose keys are either strings or `HttpMethod` members
(`PyKey`), together with a flag recording whether the dict is a
`defaultdict(dict)`.  Values are either nested dicts or payload objects
(`PyObj`).  Python runtime errors (`KeyError`, `TypeError`, `AttributeError`)
are modelled with `Except PyError`.
-/

set_option autoImplicit false

/-- Modelled from the spec: `HTTPMethod` is a closed enumeration
`{POST, GET, PUT, DELETE, …}` declared in `samples_validator/base.py`
(not under `src/`); `patch` stands for the further members indicated by `…`
that do not participate in ordering/ancestry logic. -/
inductive HttpMethod : Type where
  | post
  | get
  | put
  | delete
  | patch
deriving DecidableEq, Repr

/-- Modelled from the spec: the closed set of documentation languages of a
`CodeSample` (declared in `samples_validator/base.py`, not under `src/`).
Each member has a string rendering `value` used by `CodeSamplesTree.put` as
the tree-key prefix; renderings of distinct members are distinct and none is
a prefix of another, which is what makes keys `language + path` collision-free
between languages as the spec asserts. -/
inductive Lang : Type where
  | python
  | curl
  | js
deriving DecidableEq, Repr

/-- Modelled from the spec: the string rendering (`.value`) of a language. -/
def Lang.value : Lang → String
  | .python => "python"
  | .curl => "curl"
  | .js => "js"

/-- Modelled from the spec: a `CodeSample` is identified by
`(language, path, httpMethod)`; `name` is its resource path string and
`lang.value` its language rendering, exactly the fields `utils.py` reads
(`sample.lang.value`, `sample.name`, `sample.http_method`). Rendering-only
fields are opaque and omitted. -/
structure CodeSample : Type where
  lang : Lang
  name : String
  http_method : HttpMethod
deriving DecidableEq, Repr

/-- Modelled from the spec: an `ApiTestResult` references the `CodeSample` it
resulted from and an optional structured response body (`json_body`); status
fields are opaque and omitted.  The body is modelled as a list of key/value
pairs standing for a JSON object. -/
structure ApiTestResult : Type where
  sample : CodeSample
  json_body : Option (List (String × String))
deriving DecidableEq, Repr

/-- A key of one of the nested Python dicts: either a string (a path segment,
or the reserved key `"methods"`) or an `HttpMethod` enum member.  In Python an
enum member never equals a string, which the two constructors capture. -/
inductive PyKey : Type where
  | strK (s : String)
  | methK (m : HttpMethod)
deriving DecidableEq, Repr

/-- The Python runtime errors the modelled code can raise. -/
inductive PyError : Type where
  | keyError
  | typeError
  | attributeError
deriving DecidableEq, Repr

mutual
/-- A Python value stored in the nested structure: a dict (with its
insertion-ordered entries and a flag telling whether it is a
`defaultdict(dict)`) or a payload object (a `CodeSample` / `ApiTestResult`). -/
inductive PyObj (α : Type) : Type where
  | dict (dflt : Bool) (entries : Entries α) : PyObj α
  | leaf (payload : α) : PyObj α

/-- The insertion-ordered entries of a Python dict. -/
inductive Entries (α : Type) : Type where
  | nil : Entries α
  | cons (k : PyKey) (v : PyObj α) (rest : Entries α) : Entries α
end

/-- Python `d.get(k)`: the value at the first (unique, for a real dict)
occurrence of the key, or `none`. -/
def Entries.lookup {α : Type} : Entries α → PyKey → Option (PyObj α)
  | .nil, _ => none
  | .cons k v rest, key => if key = k then some v else rest.lookup key

/-- Python `d[k] = v`: replace the value at an existing key in place, or
append a new entry at the end (Python dicts preserve insertion order). -/
def Entries.set {α : Type} : Entries α → PyKey → PyObj α → Entries α
  | .nil, key, v => .cons key v .nil
  | .cons k w rest, key, v =>
    if key = k then .cons k v rest else .cons k w (rest.set key v)

/-- Python truthiness of a stored value: a dict is truthy iff non-empty, a
payload object is always truthy. -/
def PyObj.truthy {α : Type} : PyObj α → Bool
  | .dict _ .nil => false
  | .dict _ (.cons _ _ _) => true
  | .leaf _ => true

/-- Truthiness of `d.get(k)` (where `None` is falsy). -/
def truthyOpt {α : Type} : Option (PyObj α) → Bool
  | none => false
  | some v => v.truthy

/-- Python `path.split('/')` (splitting on every `'/'` occurrence, never
returning an empty list). -/
def pySplitGo : List Char → List Char → List String
  | [], acc => [⟨acc.reverse⟩]
  | c :: cs, acc => if c = '/' then ⟨acc.reverse⟩ :: pySplitGo cs [] else pySplitGo cs (c :: acc)

/-- Python `path.split('/')` on a string. -/
def pySplit (s : String) : List String := pySplitGo s.data []

/-- Whether `'/'.join(path_parts[1:])` is the empty string, given
`rest = path_parts[1:]`: true exactly for `[]` and `[""]`.  This is the
`if not further_path` test of `_put_code_sample`, `_put_test_result` and
`_get_parent_test_result`; when it is false, re-splitting the joined string
yields `rest` again (segments contain no `'/'`), so the recursion below passes
`rest` directly. -/
def furtherEmpty : List String → Bool
  | [] => true
  | [s] => s == ""
  | _ :: _ :: _ => false

/-- The common body of `TestExecutionResultMap._put_test_result` and
`CodeSamplesTree._put_code_sample` (the two methods are line-for-line
identical up to the stored payload and the attribute the HTTP method is read
from; both are instantiated below).  `parts` is the `'/'`-split of the path
relative to the current nesting level.

Mirrors, for `path_parts = c :: rest`:
```
if not current_dict.get(current_path):
    current_dict[current_path] = defaultdict(dict)
if not further_path:
    current_dict[current_path]['methods'][method] = payload
else:
    current_dict[current_path] = recurse(current_dict[current_path], further_path)
return current_dict
```
`current_dict[current_path]['methods']` creates a fresh plain dict when
`current_dict[current_path]` is a `defaultdict(dict)` and raises `KeyError`
when it is a plain dict without the key; subscripting a payload object raises
`TypeError`, and calling `.get` on one (on entry) raises `AttributeError`.

`ensureChild` is the guard
`if not current_dict.get(current_path): current_dict[current_path] = defaultdict(dict)`. -/
def ensureChild {α : Type} (es : Entries α) (c : String) : Entries α :=
  if truthyOpt (es.lookup (.strK c)) then es
  else es.set (.strK c) (.dict true .nil)

/-- See the comment on `ensureChild` above: the recursive worker shared by
`_put_test_result` and `_put_code_sample`. -/
def putPath {α : Type} : PyObj α → List String → HttpMethod → α → Except PyError (PyObj α)
  | .leaf _, _, _, _ => .error .attributeError
  | .dict dflt es, [], _, _ => .ok (.dict dflt es)
  | .dict dflt es, c :: rest, m, payload =>
    let es1 := ensureChild es c
    match es1.lookup (.strK c) with
    | none => .error .keyError
    | some v =>
      if furtherEmpty rest then
        match v with
        | .leaf _ => .error .typeError
        | .dict vd ves =>
          match ves.lookup (.strK "methods") with
          | some (.leaf _) => .error .typeError
          | some (.dict md ms) =>
            .ok (.dict dflt (es1.set (.strK c)
              (.dict vd (ves.set (.strK "methods")
                (.dict md (ms.set (.methK m) (.leaf payload)))))))
          | none =>
            if vd then
              .ok (.dict dflt (es1.set (.strK c)
                (.dict vd (ves.set (.strK "methods")
                  (.dict false (Entries.set .nil (.methK m) (.leaf payload)))))))
            else .error .keyError
      else
        match putPath v rest m payload with
        | .error e => .error e
        | .ok v2 => .ok (.dict dflt (es1.set (.strK c) v2))

/-- `TestExecutionResultMap._get_parent_test_result`.  Mirrors, for
`path_parts = c :: rest`:
```
current_methods = current_dict.get('methods', {})
current_parent = current_methods.get(HttpMethod.post, current_parent)
next_dict = current_dict.get(current_path)
if not next_dict:
    return current_parent
if not further_path:
    return current_parent
else:
    return recurse(next_dict, further_path, current_parent)
```
Calling `.get` on a payload object raises `AttributeError`. -/
def get_parent_test_result {α : Type} :
    PyObj α → List String → Option (PyObj α) → Except PyError (Option (PyObj α))
  | .leaf _, _, _ => .error .attributeError
  | .dict _ _, [], cur => .ok cur
  | .dict _ es, c :: rest, cur =>
    match (es.lookup (.strK "methods")).getD (.dict false .nil) with
    | .leaf _ => .error .attributeError
    | .dict _ ms =>
      let cur1 := match ms.lookup (.methK .post) with
                  | some v => some v
                  | none => cur
      match es.lookup (.strK c) with
      | none => .ok cur1
      | some nd =>
        if nd.truthy = false then .ok cur1
        else if furtherEmpty rest then .ok cur1
        else get_parent_test_result nd rest cur1

/-- Wrap an `Option` as a zero/one element list (used for the conditional
`result_list.append` steps of `_sort_samples`). -/
def optList {α : Type} : Option (PyObj α) → List (PyObj α)
  | none => []
  | some v => [v]

mutual
/-- `CodeSamplesTree._sort_samples` (returning the appended-to list instead of
mutating it).  Mirrors:
```
methods = endpoints.get('methods', {})
for method in (HttpMethod.post, HttpMethod.get, HttpMethod.put):
    if method in methods:
        result_list.append(methods[method])
further_paths = [name for name in endpoints.keys() if name != 'methods']
if further_paths:
    for value in further_paths:
        self._sort_samples(endpoints[value], result_list)
if HttpMethod.delete in methods:
    result_list.append(methods[HttpMethod.delete])
```
`endpoints.get` on a payload object raises `AttributeError`, and
`method in methods` on a payload object raises `TypeError`. -/
def sort_samples {α : Type} : PyObj α → Except PyError (List (PyObj α))
  | .leaf _ => .error .attributeError
  | .dict _ es =>
    match (es.lookup (.strK "methods")).getD (.dict false .nil) with
    | .leaf _ => .error .typeError
    | .dict _ ms =>
      match sort_children es with
      | .error e => .error e
      | .ok childOut =>
        .ok (optList (ms.lookup (.methK .post)) ++ optList (ms.lookup (.methK .get)) ++
             optList (ms.lookup (.methK .put)) ++ childOut ++
             optList (ms.lookup (.methK .delete)))

/-- The child recursion of `_sort_samples`: visit every entry whose key is
not the string `'methods'` (an `HttpMethod` key never equals the string), in
insertion order, concatenating the recursive results. -/
def sort_children {α : Type} : Entries α → Except PyError (List (PyObj α))
  | .nil => .ok []
  | .cons k v rest =>
    if k = .strK "methods" then sort_children rest
    else
      match sort_samples v with
      | .error e => .error e
      | .ok out =>
        match sort_children rest with
        | .error e => .error e
        | .ok outs => .ok (out ++ outs)
end

/-- The tree key of a code sample: `f'{sample.lang.value}{sample.name}'`
(from `CodeSamplesTree.put`). -/
def sampleKey (s : CodeSample) : String := s.lang.value ++ s.name

/-- `CodeSamplesTree`: `self._tree = {}` (a plain dict). -/
structure CodeSamplesTree : Type where
  tree : PyObj CodeSample

/-- The state of a fresh `CodeSamplesTree()`. -/
def CodeSamplesTree.empty : CodeSamplesTree := ⟨.dict false .nil⟩

/-- `CodeSamplesTree.put`. -/
def CodeSamplesTree.put (t : CodeSamplesTree) (s : CodeSample) :
    Except PyError CodeSamplesTree :=
  match putPath t.tree (pySplit (sampleKey s)) s.http_method s with
  | .error e => .error e
  | .ok t2 => .ok ⟨t2⟩

/-- `CodeSamplesTree.list_sorted_samples`. -/
def CodeSamplesTree.list_sorted_samples (t : CodeSamplesTree) :
    Except PyError (List (PyObj CodeSample)) :=
  sort_samples t.tree

/-- A sequence of `put` calls, in order (stopping at the first raised
exception). -/
def CodeSamplesTree.putList : CodeSamplesTree → List CodeSample → Except PyError CodeSamplesTree
  | t, [] => .ok t
  | t, s :: rest =>
    match t.put s with
    | .error e => .error e
    | .ok t2 => t2.putList rest

/-- `TestExecutionResultMap`: `self._map = {}` (a plain dict). -/
structure TestExecutionResultMap : Type where
  map : PyObj ApiTestResult

/-- The state of a fresh `TestExecutionResultMap()`. -/
def TestExecutionResultMap.empty : TestExecutionResultMap := ⟨.dict false .nil⟩

/-- `TestExecutionResultMap.put` (called `record` by the spec): keyed by
`test_result.sample.name` with the method read from
`test_result.sample.http_method`. -/
def TestExecutionResultMap.put (t : TestExecutionResultMap) (r : ApiTestResult) :
    Except PyError TestExecutionResultMap :=
  match putPath t.map (pySplit r.sample.name) r.sample.http_method r with
  | .error e => .error e
  | .ok t2 => .ok ⟨t2⟩

/-- `TestExecutionResultMap.get_parent_result`. -/
def TestExecutionResultMap.get_parent_result (t : TestExecutionResultMap) (s : CodeSample) :
    Except PyError (Option (PyObj ApiTestResult)) :=
  get_parent_test_result t.map (pySplit s.name) none

/-- `TestExecutionResultMap.get_parent_body`: `parent_result.json_body or {}`
if a parent result exists, else `{}` (a falsy — absent or empty — body gives
`{}` either way, which `Option.getD []` captures).  Reading `.json_body` off
a non-result object raises `AttributeError`. -/
def TestExecutionResultMap.get_parent_body (t : TestExecutionResultMap) (s : CodeSample) :
    Except PyError (List (String × String)) :=
  match t.get_parent_result s with
  | .error e => .error e
  | .ok none => .ok []
  | .ok (some (.leaf r)) => .ok (r.json_body.getD [])
  | .ok (some (.dict _ _)) => .error .attributeError

/-- A sequence of `put` calls on a result map. -/
def TestExecutionResultMap.putList :
    TestExecutionResultMap → List ApiTestResult → Except PyError TestExecutionResultMap
  | t, [] => .ok t
  | t, r :: rest =>
    match t.put r with
    | .error e => .error e
    | .ok t2 => t2.putList rest

/-- Follow a chain of string keys down the nested dicts (the structural
notion of "the node at this path" used to state the ordering and ancestry
claims). -/
def descend {α : Type} : PyObj α → List String → Option (PyObj α)
  | n, [] => some n
  | .dict _ es, c :: rest =>
    match es.lookup (.strK c) with
    | some v => descend v rest
    | none => none
  | .leaf _, _ :: _ => none

/-- The value stored for a given HTTP method in a node's `'methods'` payload
map, if any. -/
def methodAt {α : Type} (n : PyObj α) (m : HttpMethod) : Option (PyObj α) :=
  match n with
  | .dict _ es =>
    match es.lookup (.strK "methods") with
    | some (.dict _ ms) => ms.lookup (.methK m)
    | _ => none
  | .leaf _ => none

/-- The value `current_dict[current_path]` holds after the `ensureChild`
guard ran: the existing truthy value, or the freshly created
`defaultdict(dict)` (used to state lemmas about `putPath`). -/
def ensuredChildVal {α : Type} (es : Entries α) (c : String) : PyObj α :=
  if truthyOpt (es.lookup (.strK c)) then (es.lookup (.strK c)).getD (.dict true .nil)
  else .dict true .nil

/-- Well-formedness of a payload map (the value at a `'methods'` key) in a
state reachable by inserts whose paths avoid the segment `'methods'`: a plain
dict whose entries all map an `HttpMethod` member to a payload object. -/
def wfMethods {α : Type} : Entries α → Bool
  | .nil => true
  | .cons (.methK _) (.leaf _) rest => wfMethods rest
  | .cons _ _ _ => false

mutual
/-- Well-formedness of the value at a non-`'methods'` string key of a node: a
`defaultdict(dict)` that is itself a well-formed node. -/
def wfObjChild {α : Type} : PyObj α → Bool
  | .dict true es => wfEntries es
  | _ => false

/-- Well-formedness of the value at a `'methods'` key: a plain dict that is a
well-formed payload map. -/
def wfPayload {α : Type} : PyObj α → Bool
  | .dict false ms => wfMethods ms
  | _ => false

/-- Well-formedness of the entries of a node dict in a state reachable by
inserts whose paths avoid the segment `'methods'`. -/
def wfEntries {α : Type} : Entries α → Bool
  | .nil => true
  | .cons (.strK k) v rest =>
    (if k = "methods" then wfPayload v else wfObjChild v) && wfEntries rest
  | .cons (.methK _) _ _ => false
end

mutual
/-- Every value reachable by following string keys is a dict (what the
lookup operations need in order never to raise), value side. -/
def getSafe {α : Type} : PyObj α → Bool
  | .leaf _ => false
  | .dict _ es => getSafeEntries es

/-- Every value stored at a string key is a dict, recursively. -/
def getSafeEntries {α : Type} : Entries α → Bool
  | .nil => true
  | .cons (.strK _) v rest => getSafe v && getSafeEntries rest
  | .cons (.methK _) _ rest => getSafeEntries rest
end

mutual
/-- Method-consistency: every payload object stored under an `HttpMethod` key
was stored by `put` under its own `http_method`, value side. -/
def mcObj : PyObj CodeSample → Bool
  | .leaf _ => true
  | .dict _ es => mcEntries es

/-- Method-consistency, entries side. -/
def mcEntries : Entries CodeSample → Bool
  | .nil => true
  | .cons (.methK h) (.leaf s) rest => (s.http_method == h) && mcEntries rest
  | .cons _ v rest => mcObj v && mcEntries rest
end

/-- The method-consistency condition of a single dict entry: a payload
object stored under an `HttpMethod` key carries that method. -/
def mcPair : PyKey → PyObj CodeSample → Bool
  | .methK h, .leaf s => s.http_method == h
  | _, v => mcObj v

/-- An operation of the core: insert a code sample into the
`CodeSamplesTree`, or record a test result in the `TestExecutionResultMap`. -/
inductive Op : Type where
  | opSample (s : CodeSample)
  | opResult (r : ApiTestResult)

/-- The joint state of the two structures built by one tool run. -/
structure SysState : Type where
  tree : CodeSamplesTree
  rmap : TestExecutionResultMap

/-- Execute one mutating operation. -/
def runOp (st : SysState) : Op → Except PyError SysState
  | .opSample s =>
    match st.tree.put s with
    | .error e => .error e
    | .ok t => .ok ⟨t, st.rmap⟩
  | .opResult r =>
    match st.rmap.put r with
    | .error e => .error e
    | .ok m => .ok ⟨st.tree, m⟩

/-- Execute a sequence of mutating operations, in order. -/
def runOps : SysState → List Op → Except PyError SysState
  | st, [] => .ok st
  | st, op :: rest =>
    match runOp st op with
    | .error e => .error e
    | .ok st2 => runOps st2 rest

/-- Two freshly constructed structures. -/
def initState : SysState := ⟨CodeSamplesTree.empty, TestExecutionResultMap.empty⟩

/-- The `'/'`-split key path an operation descends along. -/
def opKeyParts : Op → List String
  | .opSample s => pySplit (sampleKey s)
  | .opResult r => pySplit r.sample.name

/-- A key path none of whose segments is the reserved dict key `'methods'`. -/
def cleanParts (parts : List String) : Prop := ∀ seg ∈ parts, seg ≠ "methods"

/-- The top-level `'methods'` entry of a dict (if present) is itself a dict
holding no `HttpMethod` keys.  This holds for the root dict of every reachable
`TestExecutionResultMap`, and makes `_get_parent_test_result` return its
initial `current_parent = None` for single-segment paths. -/
def rootMethodsClean {α : Type} : PyObj α → Prop
  | .dict _ es =>
    match es.lookup (.strK "methods") with
    | none => True
    | some (.dict _ es2) => ∀ h : HttpMethod, es2.lookup (.methK h) = none
    | some (.leaf _) => False
  | .leaf _ => False

/-- Joining split segments back with `'/'` (only used to prove that
`pySplit` is injective). -/
def joinSlash : List String → List Char
  | [] => []
  | [s] => s.data
  | s :: s2 :: rest => s.data ++ '/' :: joinSlash (s2 :: rest)

/-- The concrete scenario of the spec: samples for paths
`items (POST), items (GET), items/{id} (GET), items/{id} (DELETE),
items (DELETE)` in one language, inserted in this order. -/
def scenarioSamples : List CodeSample :=
  [⟨.python, "items", .post⟩, ⟨.python, "items", .get⟩, ⟨.python, "items/{id}", .get⟩,
   ⟨.python, "items/{id}", .delete⟩, ⟨.python, "items", .delete⟩]

-- Sanity checks of the embedding on tiny concrete inputs.
example : pySplit "a/b" = ["a", "b"] := rfl
example : pySplit "" = [""] := rfl
example : pySplit "a/" = ["a", ""] := rfl
example :
    (CodeSamplesTree.empty.put ⟨.python, "items", .post⟩).map
      (fun t => t.list_sorted_samples) =
      .ok (.ok [.leaf ⟨.python, "items", .post⟩]) := rfl

/-! ## Basic lemmas about the dict model -/

/-- Structural induction over `Entries` alone (the values are not recursed
into); the mutual recursor cannot be used by the `induction` tactic. -/
theorem Entries.inductionOn {α : Type} {motive : Entries α → Prop}
    (hnil : motive .nil)
    (hcons : ∀ (k : PyKey) (v : PyObj α) (rest : Entries α),
      motive rest → motive (.cons k v rest)) :
    ∀ es : Entries α, motive es
  | .nil => hnil
  | .cons k v rest => hcons k v rest (Entries.inductionOn hnil hcons rest)

mutual
/-- Mutual structural induction over `PyObj`, value side. -/
theorem PyObj.indPair {α : Type} {m1 : PyObj α → Prop} {m2 : Entries α → Prop}
    (hdict : ∀ (b : Bool) (es : Entries α), m2 es → m1 (.dict b es))
    (hleaf : ∀ a : α, m1 (.leaf a))
    (hnil : m2 .nil)
    (hcons : ∀ (k : PyKey) (v : PyObj α) (rest : Entries α),
      m1 v → m2 rest → m2 (.cons k v rest)) :
    ∀ t : PyObj α, m1 t
  | .dict b es => hdict b es (Entries.indPairEnt hdict hleaf hnil hcons es)
  | .leaf a => hleaf a

/-- Mutual structural induction over `PyObj`, entries side. -/
theorem Entries.indPairEnt {α : Type} {m1 : PyObj α → Prop} {m2 : Entries α → Prop}
    (hdict : ∀ (b : Bool) (es : Entries α), m2 es → m1 (.dict b es))
    (hleaf : ∀ a : α, m1 (.leaf a))
    (hnil : m2 .nil)
    (hcons : ∀ (k : PyKey) (v : PyObj α) (rest : Entries α),
      m1 v → m2 rest → m2 (.cons k v rest)) :
    ∀ es : Entries α, m2 es
  | .nil => hnil
  | .cons k v rest =>
    hcons k v rest (PyObj.indPair hdict hleaf hnil hcons v)
      (Entries.indPairEnt hdict hleaf hnil hcons rest)
end

@[simp] theorem Entries.lookup_nil {α : Type} (key : PyKey) :
    (Entries.nil : Entries α).lookup key = none := rfl

@[simp] theorem Entries.lookup_cons {α : Type} (k : PyKey) (v : PyObj α)
    (rest : Entries α) (key : PyKey) :
    (Entries.cons k v rest).lookup key = if key = k then some v else rest.lookup key := rfl

@[simp] theorem Entries.set_nil {α : Type} (key : PyKey) (v : PyObj α) :
    (Entries.nil : Entries α).set key v = .cons key v .nil := rfl

@[simp] theorem Entries.set_cons {α : Type} (k : PyKey) (w : PyObj α)
    (rest : Entries α) (key : PyKey) (v : PyObj α) :
    (Entries.cons k w rest).set key v =
      if key = k then .cons k v rest else .cons k w (rest.set key v) := rfl

theorem Entries.lookup_set {α : Type} (es : Entries α) (k k' : PyKey) (v : PyObj α) :
    (es.set k v).lookup k' = if k' = k then some v else es.lookup k' := by
  induction es using Entries.inductionOn with
  | hnil => by_cases h : k' = k <;> simp [h]
  | hcons kh w rest ih =>
    by_cases hk : k = kh
    · subst hk
      by_cases h : k' = k <;> simp [h]
    · by_cases h : k' = kh
      · subst h
        simp [hk, Ne.symm hk]
      · simp [hk, h, ih]

theorem Entries.set_set {α : Type} (es : Entries α) (k : PyKey) (a b : PyObj α) :
    (es.set k a).set k b = es.set k b := by
  induction es using Entries.inductionOn with
  | hnil => simp
  | hcons kh w rest ih =>
    by_cases hk : k = kh <;> simp [hk, ih]

/-- Setting one string key does not change the result of looking up a
different key. -/
theorem Entries.lookup_set_ne {α : Type} (es : Entries α) (k k' : PyKey) (v : PyObj α)
    (h : k' ≠ k) : (es.set k v).lookup k' = es.lookup k' := by
  rw [Entries.lookup_set, if_neg h]

/-! ## Claim C1: traversal order -/

/-- Claim C1: at every node `_sort_samples` emits the node's own POST, GET and
PUT samples in that order, then the concatenated outputs of the child
recursion, and the node's own DELETE sample last; in particular the concrete
scenario `items (POST), items (GET), items/{id} (GET), items/{id} (DELETE),
items (DELETE)` is ordered as
`items:POST, items:GET, items/{id}:GET, items/{id}:DELETE, items:DELETE`. -/
theorem claim_C1 :
    (∀ (α : Type) (dflt md : Bool) (es ms : Entries α) (out : List (PyObj α)),
        (es.lookup (.strK "methods")).getD (.dict false .nil) = .dict md ms →
        sort_samples (.dict dflt es) = .ok out →
        ∃ cs, sort_children es = .ok cs ∧
          out = optList (ms.lookup (.methK .post)) ++ optList (ms.lookup (.methK .get)) ++
                optList (ms.lookup (.methK .put)) ++ cs ++
                optList (ms.lookup (.methK .delete))) ∧
    (CodeSamplesTree.empty.putList scenarioSamples).map CodeSamplesTree.list_sorted_samples =
      .ok (.ok [.leaf ⟨.python, "items", .post⟩, .leaf ⟨.python, "items", .get⟩,
                .leaf ⟨.python, "items/{id}", .get⟩, .leaf ⟨.python, "items/{id}", .delete⟩,
                .leaf ⟨.python, "items", .delete⟩]) := by
  constructor
  · intro α dflt md es ms out hms hout
    rw [sort_samples, hms] at hout
    cases hsc : sort_children es with
    | error e => rw [hsc] at hout; cases hout
    | ok cs =>
      rw [hsc] at hout
      exact ⟨cs, rfl, (Except.ok.inj hout).symm⟩
  · rfl

/-- Witness for C1: the decomposition applied to a concrete one-node tree
holding a single POST sample. -/
theorem claim_C1_wit :
    ∃ cs,
      sort_children (Entries.cons (.strK "methods")
          (.dict false (Entries.cons (.methK .post)
            (.leaf (⟨.python, "a", .post⟩ : CodeSample)) .nil)) .nil) = .ok cs ∧
      ([.leaf (⟨.python, "a", .post⟩ : CodeSample)] : List (PyObj CodeSample)) =
        optList ((Entries.cons (.methK .post)
            (.leaf (⟨.python, "a", .post⟩ : CodeSample)) .nil).lookup (.methK .post)) ++
        optList ((Entries.cons (.methK .post)
            (.leaf (⟨.python, "a", .post⟩ : CodeSample)) .nil).lookup (.methK .get)) ++
        optList ((Entries.cons (.methK .post)
            (.leaf (⟨.python, "a", .post⟩ : CodeSample)) .nil).lookup (.methK .put)) ++
        cs ++
        optList ((Entries.cons (.methK .post)
            (.leaf (⟨.python, "a", .post⟩ : CodeSample)) .nil).lookup (.methK .delete)) :=
  claim_C1.1 CodeSample false false _ _ _ rfl rfl

/-! ## Claim C5: exception behaviour -/

/-- Counterexample for C5 as stated: a sequence of two `put` calls (resp. two
`record` calls) with ordinary path strings raises `KeyError`, because the
second path's final segment is the reserved dict key `'methods'` and the
payload map of the first path's node is a plain dict. -/
theorem claim_C5_cex :
    CodeSamplesTree.empty.putList
        [⟨.python, "x", .post⟩, ⟨.python, "x/methods", .get⟩] = .error .keyError ∧
    TestExecutionResultMap.empty.putList
        [⟨⟨.python, "x", .post⟩, none⟩, ⟨⟨.python, "x/methods", .get⟩, none⟩] =
      .error .keyError :=
  ⟨rfl, rfl⟩

/-! ## Claim C6: last insert wins -/

@[simp] theorem PyObj.truthy_leaf {α : Type} (a : α) : (PyObj.leaf a).truthy = true := rfl

@[simp] theorem PyObj.truthy_dict_nil {α : Type} (b : Bool) :
    (PyObj.dict b (.nil : Entries α)).truthy = false := rfl

@[simp] theorem PyObj.truthy_dict_cons {α : Type} (b : Bool) (k : PyKey) (v : PyObj α)
    (rest : Entries α) : (PyObj.dict b (.cons k v rest)).truthy = true := rfl

/-- A dict just written to is truthy. -/
theorem PyObj.truthy_dict_set {α : Type} (b : Bool) (es : Entries α) (k : PyKey)
    (v : PyObj α) : (PyObj.dict b (es.set k v)).truthy = true := by
  cases es with
  | nil => rfl
  | cons kh w rest => rw [Entries.set_cons]; split <;> rfl

/-- One-step unfolding of `putPath` on a non-empty path. -/
theorem putPath_cons_def {α : Type} (dflt : Bool) (es : Entries α) (c : String)
    (rest : List String) (m : HttpMethod) (payload : α) :
    putPath (.dict dflt es) (c :: rest) m payload =
      match (ensureChild es c).lookup (.strK c) with
      | none => .error .keyError
      | some v =>
        if furtherEmpty rest then
          match v with
          | .leaf _ => .error .typeError
          | .dict vd ves =>
            match ves.lookup (.strK "methods") with
            | some (.leaf _) => .error .typeError
            | some (.dict md ms) =>
              .ok (.dict dflt ((ensureChild es c).set (.strK c)
                (.dict vd (ves.set (.strK "methods")
                  (.dict md (ms.set (.methK m) (.leaf payload)))))))
            | none =>
              if vd then
                .ok (.dict dflt ((ensureChild es c).set (.strK c)
                  (.dict vd (ves.set (.strK "methods")
                    (.dict false (Entries.set .nil (.methK m) (.leaf payload)))))))
              else .error .keyError
        else
          match putPath v rest m payload with
          | .error e => .error e
          | .ok v2 => .ok (.dict dflt ((ensureChild es c).set (.strK c) v2)) := rfl

/-- After `ensureChild`, the child is present; its value is `ensuredChildVal`. -/
theorem ensureChild_lookup {α : Type} (es : Entries α) (c : String) :
    (ensureChild es c).lookup (.strK c) = some (ensuredChildVal es c) := by
  unfold ensureChild ensuredChildVal
  by_cases h : truthyOpt (es.lookup (.strK c))
  · rw [if_pos h, if_pos h]
    cases hl : es.lookup (.strK c) with
    | none => rw [hl] at h; exact absurd h (by simp [truthyOpt])
    | some v => simp
  · rw [if_neg h, if_neg h, Entries.lookup_set, if_pos rfl]

/-- `ensureChild` does not change other keys. -/
theorem ensureChild_lookup_ne {α : Type} (es : Entries α) (c : String) (k : PyKey)
    (h : k ≠ .strK c) : (ensureChild es c).lookup k = es.lookup k := by
  unfold ensureChild
  split
  · rfl
  · rw [Entries.lookup_set_ne _ _ _ _ h]

/-- `ensureChild` is the identity when the child is already present and
truthy. -/
theorem ensureChild_of_truthy {α : Type} (es : Entries α) (c : String)
    (h : truthyOpt (es.lookup (.strK c)) = true) : ensureChild es c = es := if_pos h

/-- `ensuredChildVal` after writing a truthy value at the key. -/
theorem ensuredChildVal_set_self {α : Type} (es : Entries α) (c : String) (v : PyObj α)
    (hv : v.truthy = true) : ensuredChildVal (es.set (.strK c) v) c = v := by
  unfold ensuredChildVal
  rw [Entries.lookup_set, if_pos rfl]
  simp [truthyOpt, hv]

/-- `ensureChild` after writing a truthy value at the key. -/
theorem ensureChild_set_self {α : Type} (es : Entries α) (c : String) (v : PyObj α)
    (hv : v.truthy = true) : ensureChild (es.set (.strK c) v) c = es.set (.strK c) v :=
  ensureChild_of_truthy _ _ (by rw [Entries.lookup_set, if_pos rfl]; simpa [truthyOpt] using hv)

/-- One-step evaluation of `putPath` on a non-empty path, with the guaranteed
child lookup already resolved. -/
theorem putPath_cons_eval {α : Type} (dflt : Bool) (es : Entries α) (c : String)
    (rest : List String) (m : HttpMethod) (payload : α) :
    putPath (.dict dflt es) (c :: rest) m payload =
      if furtherEmpty rest then
        match ensuredChildVal es c with
        | .leaf _ => .error .typeError
        | .dict vd ves =>
          match ves.lookup (.strK "methods") with
          | some (.leaf _) => .error .typeError
          | some (.dict md ms) =>
            .ok (.dict dflt ((ensureChild es c).set (.strK c)
              (.dict vd (ves.set (.strK "methods")
                (.dict md (ms.set (.methK m) (.leaf payload)))))))
          | none =>
            if vd then
              .ok (.dict dflt ((ensureChild es c).set (.strK c)
                (.dict vd (ves.set (.strK "methods")
                  (.dict false (Entries.set .nil (.methK m) (.leaf payload)))))))
            else .error .keyError
      else
        match putPath (ensuredChildVal es c) rest m payload with
        | .error e => .error e
        | .ok v2 => .ok (.dict dflt ((ensureChild es c).set (.strK c) v2)) := by
  rw [putPath_cons_def, ensureChild_lookup]

/-- The result of a successful insert along a non-empty path is a truthy
(non-empty) dict. -/
theorem putPath_ok_truthy {α : Type} (t : PyObj α) (c : String) (rest : List String)
    (m : HttpMethod) (p : α) (t' : PyObj α) (h : putPath t (c :: rest) m p = .ok t') :
    t'.truthy = true := by
  cases t with
  | leaf a => exact absurd h (by simp [putPath])
  | dict dflt es =>
    rw [putPath_cons_eval] at h
    by_cases hf : furtherEmpty rest
    · rw [if_pos hf] at h
      cases hv : ensuredChildVal es c with
      | leaf a => rw [hv] at h; cases h
      | dict vd ves =>
        rw [hv] at h
        dsimp only at h
        cases hms : ves.lookup (.strK "methods") with
        | none =>
          rw [hms] at h
          dsimp only at h
          by_cases hvd : vd = true
          · subst hvd
            rw [if_pos rfl] at h
            cases h
            exact PyObj.truthy_dict_set _ _ _ _
          · have : vd = false := by cases vd <;> simp_all
            subst this
            rw [if_neg (by simp)] at h
            cases h
        | some w =>
          rw [hms] at h
          cases w with
          | leaf a => dsimp only at h; cases h
          | dict md ms =>
            dsimp only at h
            cases h
            exact PyObj.truthy_dict_set _ _ _ _
    · rw [if_neg hf] at h
      cases hrec : putPath (ensuredChildVal es c) rest m p with
      | error e => rw [hrec] at h; cases h
      | ok v2 =>
        rw [hrec] at h
        dsimp only at h
        cases h
        exact PyObj.truthy_dict_set _ _ _ _

/-- Inserting twice along the same key path with the same method is the same
as inserting only the second payload: the worker of `put` / `record`
overwrites per `(path, method)` key. -/
theorem putPath_overwrite {α : Type} :
    ∀ (parts : List String) (t : PyObj α) (m : HttpMethod) (p₁ p₂ : α),
      (match putPath t parts m p₁ with
       | .error e => .error e
       | .ok t1 => putPath t1 parts m p₂) = putPath t parts m p₂
  | [], t, m, p₁, p₂ => by
    cases t with
    | leaf a => rfl
    | dict dflt es => rfl
  | c :: rest, t, m, p₁, p₂ => by
    cases t with
    | leaf a => rfl
    | dict dflt es =>
      rw [putPath_cons_eval dflt es c rest m p₁, putPath_cons_eval dflt es c rest m p₂]
      by_cases hf : furtherEmpty rest
      · rw [if_pos hf, if_pos hf]
        cases hv : ensuredChildVal es c with
        | leaf a => rfl
        | dict vd ves =>
          dsimp only
          cases hms : ves.lookup (.strK "methods") with
          | none =>
            dsimp only
            by_cases hvd : vd = true
            · subst hvd
              rw [if_pos rfl]
              dsimp only
              rw [putPath_cons_eval, ensuredChildVal_set_self _ _ _
                  (PyObj.truthy_dict_set _ _ _ _),
                ensureChild_set_self _ _ _ (PyObj.truthy_dict_set _ _ _ _)]
              rw [if_pos hf]
              dsimp only
              rw [Entries.lookup_set, if_pos rfl]
              dsimp only
              rw [Entries.set_set, Entries.set_set, Entries.set_set, if_pos rfl]
            · have hvd2 : vd = false := by cases vd <;> simp_all
              subst hvd2
              rw [if_neg (by simp), if_neg (by simp)]
          | some w =>
            cases w with
            | leaf a => rfl
            | dict md ms =>
              dsimp only
              rw [putPath_cons_eval, ensuredChildVal_set_self _ _ _
                  (PyObj.truthy_dict_set _ _ _ _),
                ensureChild_set_self _ _ _ (PyObj.truthy_dict_set _ _ _ _)]
              rw [if_pos hf]
              dsimp only
              rw [Entries.lookup_set, if_pos rfl]
              dsimp only
              rw [Entries.set_set, Entries.set_set, Entries.set_set]
      · rw [if_neg hf, if_neg hf]
        have ih := putPath_overwrite rest (ensuredChildVal es c) m p₁ p₂
        cases hrec : putPath (ensuredChildVal es c) rest m p₁ with
        | error e =>
          rw [hrec] at ih
          dsimp only at ih
          rw [← ih]
        | ok v2 =>
          rw [hrec] at ih
          dsimp only at ih
          rw [← ih]
          have hv2t : v2.truthy = true := by
            cases hecv : ensuredChildVal es c with
            | leaf a => rw [hecv] at hrec; exact absurd hrec (by simp [putPath])
            | dict b2 es2 =>
              rw [hecv] at hrec
              cases rest with
              | nil => exact absurd hf (by simp [furtherEmpty])
              | cons c2 rest2 => exact putPath_ok_truthy _ _ _ _ _ _ hrec
          dsimp only
          rw [putPath_cons_eval, ensuredChildVal_set_self _ _ _ hv2t,
            ensureChild_set_self _ _ _ hv2t, if_neg hf]
          cases hrec2 : putPath v2 rest m p₂ with
          | error e => rfl
          | ok v3 =>
            dsimp only
            rw [Entries.set_set]

/-- Claim C6: inserting twice with an identical `(language, path, method)` key
leaves exactly one entry — the second — both in the tree and in the sorted
output; the same overwrite holds for `record` on `TestExecutionResultMap` per
`(path, method)`.  The first conjunct is the general statement for the shared
insertion worker; the second exhibits it on `TestExecutionResultMap` with two
distinguishable payloads (same sample key, different bodies); the third shows
the sorted output of a double insert holds exactly one entry. -/
theorem claim_C6 :
    (∀ (α : Type) (parts : List String) (t : PyObj α) (m : HttpMethod) (p₁ p₂ : α),
      (match putPath t parts m p₁ with
       | .error e => .error e
       | .ok t1 => putPath t1 parts m p₂) = putPath t parts m p₂) ∧
    TestExecutionResultMap.empty.putList
        [⟨⟨.python, "items", .post⟩, none⟩, ⟨⟨.python, "items", .post⟩, some [("id", "1")]⟩] =
      TestExecutionResultMap.empty.putList [⟨⟨.python, "items", .post⟩, some [("id", "1")]⟩] ∧
    (CodeSamplesTree.empty.putList
        [⟨.python, "items", .post⟩, ⟨.python, "items", .post⟩]).map
        CodeSamplesTree.list_sorted_samples =
      .ok (.ok [.leaf ⟨.python, "items", .post⟩]) :=
  ⟨fun _ parts t m p₁ p₂ => putPath_overwrite parts t m p₁ p₂, rfl, rfl⟩

/-! ## Claim C8: different languages never collide -/

theorem pySplitGo_ne_nil (cs acc : List Char) : pySplitGo cs acc ≠ [] := by
  induction cs generalizing acc with
  | nil => simp [pySplitGo]
  | cons c cs ih =>
    simp only [pySplitGo]
    split
    · simp
    · exact ih _

theorem joinSlash_cons_ne (s : String) (l : List String) (h : l ≠ []) :
    joinSlash (s :: l) = s.data ++ '/' :: joinSlash l := by
  cases l with
  | nil => exact absurd rfl h
  | cons s2 r => rfl

theorem joinSlash_pySplitGo (cs acc : List Char) :
    joinSlash (pySplitGo cs acc) = acc.reverse ++ cs := by
  induction cs generalizing acc with
  | nil => simp [pySplitGo, joinSlash]
  | cons c cs ih =>
    simp only [pySplitGo]
    split
    · rename_i h
      rw [joinSlash_cons_ne _ _ (pySplitGo_ne_nil cs []), ih []]
      subst h
      simp [joinSlash]
    · rw [ih (c :: acc)]
      simp

theorem pySplit_injective (a b : String) (h : pySplit a = pySplit b) : a = b := by
  have hj := congrArg joinSlash h
  unfold pySplit at hj
  rw [joinSlash_pySplitGo, joinSlash_pySplitGo] at hj
  simp at hj
  exact String.ext hj

/-- Claim C8: two samples with different languages have different tree keys
(`language + path`), hence different `'/'`-split key paths, so `put` stores
them at distinct trie positions and they never overwrite one another. -/
theorem claim_C8 (s₁ s₂ : CodeSample) (h : s₁.lang ≠ s₂.lang) :
    sampleKey s₁ ≠ sampleKey s₂ ∧ pySplit (sampleKey s₁) ≠ pySplit (sampleKey s₂) := by
  have hkey : sampleKey s₁ ≠ sampleKey s₂ := by
    intro he
    rcases s₁ with ⟨l₁, n₁, m₁⟩
    rcases s₂ with ⟨l₂, n₂, m₂⟩
    unfold sampleKey at he
    have hd := congrArg String.data he
    rw [String.data_append, String.data_append] at hd
    cases l₁ <;> cases l₂
    · exact h rfl
    · exact absurd (show (some 'p' : Option Char) = some 'c' from congrArg List.head? hd)
        (by decide)
    · exact absurd (show (some 'p' : Option Char) = some 'j' from congrArg List.head? hd)
        (by decide)
    · exact absurd (show (some 'c' : Option Char) = some 'p' from congrArg List.head? hd)
        (by decide)
    · exact h rfl
    · exact absurd (show (some 'c' : Option Char) = some 'j' from congrArg List.head? hd)
        (by decide)
    · exact absurd (show (some 'j' : Option Char) = some 'p' from congrArg List.head? hd)
        (by decide)
    · exact absurd (show (some 'j' : Option Char) = some 'c' from congrArg List.head? hd)
        (by decide)
    · exact h rfl
  exact ⟨hkey, fun hsp => hkey (pySplit_injective _ _ hsp)⟩

/-- Witness for C8 at concrete samples with equal paths and methods but
different languages. -/
theorem claim_C8_wit :
    (⟨.python, "items", .get⟩ : CodeSample).lang ≠ (⟨.curl, "items", .get⟩ : CodeSample).lang ∧
    (sampleKey ⟨.python, "items", .get⟩ ≠ sampleKey ⟨.curl, "items", .get⟩ ∧
      pySplit (sampleKey ⟨.python, "items", .get⟩) ≠ pySplit (sampleKey ⟨.curl, "items", .get⟩)) :=
  ⟨by decide, claim_C8 ⟨.python, "items", .get⟩ ⟨.curl, "items", .get⟩ (by decide)⟩

/-! ## Claims C4 and C3: ancestor resolution -/

@[simp] theorem furtherEmpty_nil : furtherEmpty [] = true := rfl

@[simp] theorem furtherEmpty_single (s : String) : furtherEmpty [s] = (s == "") := rfl

@[simp] theorem furtherEmpty_pair (a b : String) (l : List String) :
    furtherEmpty (a :: b :: l) = false := rfl

@[simp] theorem descend_nil {α : Type} (t : PyObj α) : descend t [] = some t := by
  cases t <;> rfl

@[simp] theorem descend_cons {α : Type} (b : Bool) (es : Entries α) (c : String)
    (rest : List String) :
    descend (.dict b es) (c :: rest) =
      match es.lookup (.strK c) with
      | some v => descend v rest
      | none => none := rfl

/-- One-step unfolding of `_get_parent_test_result` on a non-empty path. -/
theorem get_parent_cons_def {α : Type} (b : Bool) (es : Entries α) (c : String)
    (rest : List String) (cur : Option (PyObj α)) :
    get_parent_test_result (.dict b es) (c :: rest) cur =
      match (es.lookup (.strK "methods")).getD (.dict false .nil) with
      | .leaf _ => .error .attributeError
      | .dict _ ms =>
        match es.lookup (.strK c) with
        | none => .ok (match ms.lookup (.methK .post) with
                       | some v => some v
                       | none => cur)
        | some nd =>
          if nd.truthy = false then
            .ok (match ms.lookup (.methK .post) with
                 | some v => some v
                 | none => cur)
          else if furtherEmpty rest then
            .ok (match ms.lookup (.methK .post) with
                 | some v => some v
                 | none => cur)
          else get_parent_test_result nd rest
            (match ms.lookup (.methK .post) with
             | some v => some v
             | none => cur) := rfl

/-- Every value `_get_parent_test_result` can return other than its incoming
`current_parent` is the POST entry of a node at a strict prefix of the path:
the node at the full path is never consulted. -/
theorem get_parent_from_ancestor {α : Type} :
    ∀ (parts : List String) (t : PyObj α) (cur r : Option (PyObj α)),
      get_parent_test_result t parts cur = .ok r →
      r = cur ∨ ∃ k, k < parts.length ∧
        ∃ n, descend t (parts.take k) = some n ∧ methodAt n .post = r
  | [], t, cur, r, h => by
    cases t with
    | leaf a => cases h
    | dict b es => exact Or.inl (Except.ok.inj h).symm
  | c :: rest, t, cur, r, h => by
    cases t with
    | leaf a => cases h
    | dict b es =>
      rw [get_parent_cons_def] at h
      cases hms : (es.lookup (.strK "methods")).getD (.dict false .nil) with
      | leaf a => rw [hms] at h; cases h
      | dict mb ms =>
        rw [hms] at h
        dsimp only at h
        have hcur1 : ∀ r', (match ms.lookup (.methK .post) with
            | some v => some v
            | none => cur) = r' →
            r' = cur ∨ ∃ k, k < (c :: rest).length ∧
              ∃ n, descend (PyObj.dict b es) ((c :: rest).take k) = some n ∧
                methodAt n .post = r' := by
          intro r' hr'
          cases hp : ms.lookup (.methK .post) with
          | none => rw [hp] at hr'; exact Or.inl hr'.symm
          | some v =>
            rw [hp] at hr'
            dsimp only at hr'
            refine Or.inr ⟨0, by simp, .dict b es, by simp, ?_⟩
            dsimp only [methodAt]
            cases hm2 : es.lookup (.strK "methods") with
            | none =>
              rw [hm2] at hms
              simp only [Option.getD_none] at hms
              injection hms with hmb hmse
              subst hmse
              simp at hp
            | some w =>
              rw [hm2] at hms
              simp only [Option.getD_some] at hms
              subst hms
              dsimp only
              rw [hp]
              exact hr'
        cases hnd : es.lookup (.strK c) with
        | none =>
          rw [hnd] at h
          exact hcur1 r (Except.ok.inj h)
        | some nd =>
          rw [hnd] at h
          dsimp only at h
          by_cases ht : nd.truthy = false
          · rw [if_pos ht] at h
            exact hcur1 r (Except.ok.inj h)
          · rw [if_neg ht] at h
            by_cases hf : furtherEmpty rest
            · rw [if_pos hf] at h
              exact hcur1 r (Except.ok.inj h)
            · rw [if_neg hf] at h
              rcases get_parent_from_ancestor rest nd _ r h with hr | ⟨k, hk, n, hdesc, hpost⟩
              · exact hcur1 r hr.symm
              · refine Or.inr ⟨k + 1, by simpa using hk, n, ?_, hpost⟩
                simp only [List.take_succ_cons, descend_cons, hnd]
                exact hdesc

/-- Claim C4: whatever `get_parent_result` returns was recorded at a strict
ancestor of the sample's path (a proper prefix of its segment sequence); a
sample's own POST result is never treated as its own ancestor. -/
theorem claim_C4 (M : TestExecutionResultMap) (s : CodeSample) (parts : List String)
    (v : PyObj ApiTestResult) (hp : pySplit s.name = parts)
    (h : M.get_parent_result s = .ok (some v)) :
    ∃ k, k < parts.length ∧
      ∃ n, descend M.map (parts.take k) = some n ∧ methodAt n .post = some v := by
  unfold TestExecutionResultMap.get_parent_result at h
  rw [hp] at h
  rcases get_parent_from_ancestor parts M.map none (some v) h with h1 | h2
  · cases h1
  · exact h2

/-- Witness for C4: a concrete map holding one POST result at path `a`,
queried for a sample at `a/b`. -/
theorem claim_C4_wit :
    ∃ k, k < (["a", "b"] : List String).length ∧
      ∃ n, descend (PyObj.dict false (.cons (.strK "a") (.dict true (.cons (.strK "methods")
          (.dict false (.cons (.methK .post) (.leaf ⟨⟨.python, "a", .post⟩, none⟩) .nil))
          .nil)) .nil) : PyObj ApiTestResult) ((["a", "b"] : List String).take k) = some n ∧
        methodAt n .post = some (.leaf ⟨⟨.python, "a", .post⟩, none⟩) :=
  claim_C4 ⟨.dict false (.cons (.strK "a") (.dict true (.cons (.strK "methods")
      (.dict false (.cons (.methK .post) (.leaf ⟨⟨.python, "a", .post⟩, none⟩) .nil))
      .nil)) .nil)⟩ ⟨.python, "a/b", .get⟩ ["a", "b"]
    (.leaf ⟨⟨.python, "a", .post⟩, none⟩) rfl rfl

/-- Claim C3: with POST results recorded for `x` and then `x/y`, the parent
result resolved for any sample at `x/y/z` is the one recorded at `x/y` (the
nearest recorded ancestor), not the one recorded at `x`. -/
theorem claim_C3 (x y z : String) (r₁ r₂ : ApiTestResult) (m₁ m₂ : PyObj ApiTestResult)
    (hx : x ≠ "methods") (hy : y ≠ "methods") (hy0 : y ≠ "") (hz0 : z ≠ "")
    (h1 : putPath TestExecutionResultMap.empty.map [x] .post r₁ = .ok m₁)
    (h2 : putPath m₁ [x, y] .post r₂ = .ok m₂) :
    get_parent_test_result m₂ [x, y, z] none = .ok (some (.leaf r₂)) := by
  have e1 : putPath TestExecutionResultMap.empty.map [x] .post r₁ =
      .ok (.dict false (.cons (.strK x) (.dict true (.cons (.strK "methods")
        (.dict false (.cons (.methK .post) (.leaf r₁) .nil)) .nil)) .nil)) := by
    rw [show TestExecutionResultMap.empty.map = (.dict false .nil : PyObj ApiTestResult) from rfl,
      putPath_cons_eval]
    simp [ensuredChildVal, ensureChild, truthyOpt]
  rw [e1] at h1
  have hm1 := Except.ok.inj h1
  subst hm1
  have e2 : putPath (.dict false (.cons (.strK x) (.dict true (.cons (.strK "methods")
        (.dict false (.cons (.methK .post) (.leaf r₁) .nil)) .nil)) .nil) : PyObj ApiTestResult)
      [x, y] .post r₂ =
      .ok (.dict false (.cons (.strK x) (.dict true (.cons (.strK "methods")
        (.dict false (.cons (.methK .post) (.leaf r₁) .nil))
        (.cons (.strK y) (.dict true (.cons (.strK "methods")
          (.dict false (.cons (.methK .post) (.leaf r₂) .nil)) .nil)) .nil))) .nil)) := by
    rw [putPath_cons_eval]
    simp [ensuredChildVal, ensureChild, truthyOpt, hy0, putPath_cons_eval, hy, Ne.symm hy]
  rw [e2] at h2
  have hm2 := Except.ok.inj h2
  subst hm2
  by_cases hzc : z = "methods"
  · subst hzc
    simp [get_parent_cons_def, hx, Ne.symm hx, hy, Ne.symm hy, hy0, hz0, truthyOpt]
  · simp [get_parent_cons_def, hx, Ne.symm hx, hy, Ne.symm hy, hy0, hz0, hzc, Ne.symm hzc,
      truthyOpt]

/-- Witness for C3 at concrete segments and results. -/
theorem claim_C3_wit :
    get_parent_test_result ((.dict false (.cons (.strK "a") (.dict true (.cons (.strK "methods")
        (.dict false (.cons (.methK .post) (.leaf ⟨⟨.python, "a", .post⟩, none⟩) .nil))
        (.cons (.strK "b") (.dict true (.cons (.strK "methods")
          (.dict false (.cons (.methK .post)
            (.leaf ⟨⟨.python, "a/b", .post⟩, some [("id", "7")]⟩) .nil)) .nil)) .nil))) .nil))
        : PyObj ApiTestResult)
      ["a", "b", "c"] none =
      .ok (some (.leaf ⟨⟨.python, "a/b", .post⟩, some [("id", "7")]⟩)) :=
  claim_C3 "a" "b" "c" ⟨⟨.python, "a", .post⟩, none⟩ ⟨⟨.python, "a/b", .post⟩, some [("id", "7")]⟩
    (.dict false (.cons (.strK "a") (.dict true (.cons (.strK "methods")
      (.dict false (.cons (.methK .post) (.leaf ⟨⟨.python, "a", .post⟩, none⟩) .nil))
      .nil)) .nil))
    (.dict false (.cons (.strK "a") (.dict true (.cons (.strK "methods")
      (.dict false (.cons (.methK .post) (.leaf ⟨⟨.python, "a", .post⟩, none⟩) .nil))
      (.cons (.strK "b") (.dict true (.cons (.strK "methods")
        (.dict false (.cons (.methK .post)
          (.leaf ⟨⟨.python, "a/b", .post⟩, some [("id", "7")]⟩) .nil)) .nil)) .nil))) .nil))
    (by decide) (by decide) (by decide) (by decide) rfl rfl

/-! ## Claim C2: chain ordering -/

/-- Unfolding of `_sort_samples` on a dict. -/
theorem sort_samples_dict_def {α : Type} (b : Bool) (es : Entries α) :
    sort_samples (.dict b es) =
      match (es.lookup (.strK "methods")).getD (.dict false .nil) with
      | .leaf _ => .error .typeError
      | .dict _ ms =>
        match sort_children es with
        | .error e => .error e
        | .ok childOut =>
          .ok (optList (ms.lookup (.methK .post)) ++ optList (ms.lookup (.methK .get)) ++
               optList (ms.lookup (.methK .put)) ++ childOut ++
               optList (ms.lookup (.methK .delete))) := rfl

/-- Unfolding of the child recursion of `_sort_samples`. -/
theorem sort_children_cons_def {α : Type} (k : PyKey) (v : PyObj α) (rest : Entries α) :
    sort_children (.cons k v rest) =
      if k = .strK "methods" then sort_children rest
      else
        match sort_samples v with
        | .error e => .error e
        | .ok out =>
          match sort_children rest with
          | .error e => .error e
          | .ok outs => .ok (out ++ outs) := rfl

/-- `methodAt` agrees with the payload map `_sort_samples` and
`_get_parent_test_result` read via `.get('methods', {})`. -/
theorem methodAt_eq_of_getD {α : Type} (b : Bool) (es : Entries α) (mb : Bool)
    (ms : Entries α)
    (h : (es.lookup (.strK "methods")).getD (.dict false .nil) = .dict mb ms)
    (hm : HttpMethod) : methodAt (.dict b es) hm = ms.lookup (.methK hm) := by
  dsimp only [methodAt]
  cases hl : es.lookup (.strK "methods") with
  | none =>
    rw [hl] at h
    simp only [Option.getD_none] at h
    injection h with h1 h2
    subst h2
    rfl
  | some w =>
    rw [hl] at h
    simp only [Option.getD_some] at h
    subst h
    rfl

/-- The output of the child recursion contains, as one contiguous block, the
output of any child looked up by a non-`'methods'` string key. -/
theorem sort_children_block {α : Type} :
    ∀ (es : Entries α) (c : String) (v : PyObj α) (cs : List (PyObj α)),
      c ≠ "methods" → es.lookup (.strK c) = some v → sort_children es = .ok cs →
      ∃ ov pre suf, sort_samples v = .ok ov ∧ cs = pre ++ (ov ++ suf)
  | .nil, c, v, cs, hc, hl, hs => by simp at hl
  | .cons k w rest, c, v, cs, hc, hl, hs => by
    rw [sort_children_cons_def] at hs
    rw [Entries.lookup_cons] at hl
    by_cases hk : k = .strK "methods"
    · rw [if_pos hk] at hs
      have hne : (PyKey.strK c) ≠ k := by rw [hk]; simp [hc]
      rw [if_neg hne] at hl
      exact sort_children_block rest c v cs hc hl hs
    · rw [if_neg hk] at hs
      cases hsw : sort_samples w with
      | error e => rw [hsw] at hs; cases hs
      | ok ow =>
        rw [hsw] at hs
        dsimp only at hs
        cases hsr : sort_children rest with
        | error e => rw [hsr] at hs; cases hs
        | ok orest =>
          rw [hsr] at hs
          dsimp only at hs
          have hcs := Except.ok.inj hs
          by_cases hck : (PyKey.strK c) = k
          · rw [if_pos hck] at hl
            have hv := Option.some.inj hl
            subst hv
            exact ⟨ow, [], orest, hsw, by rw [← hcs]; simp⟩
          · rw [if_neg hck] at hl
            rcases sort_children_block rest c v orest hc hl hsr with ⟨ov, pre, suf, h1, h2⟩
            exact ⟨ov, ow ++ pre, suf, h1, by rw [← hcs, h2]; simp⟩

/-- Along a chain of non-`'methods'` string keys from a node whose sort
succeeds, every descendant node also sorts successfully. -/
theorem sort_descend_total {α : Type} :
    ∀ (segs : List String) (n mNode : PyObj α) (out : List (PyObj α)),
      (∀ s ∈ segs, s ≠ "methods") → descend n segs = some mNode →
      sort_samples n = .ok out → ∃ om, sort_samples mNode = .ok om
  | [], n, mNode, out, hcl, hd, hs => by
    rw [descend_nil] at hd
    cases Option.some.inj hd
    exact ⟨out, hs⟩
  | c :: segs, n, mNode, out, hcl, hd, hs => by
    cases n with
    | leaf a => cases hs
    | dict b es =>
      rw [descend_cons] at hd
      cases hl : es.lookup (.strK c) with
      | none => rw [hl] at hd; cases hd
      | some v =>
        rw [hl] at hd
        dsimp only at hd
        rw [sort_samples_dict_def] at hs
        cases hgd : (es.lookup (.strK "methods")).getD (.dict false .nil) with
        | leaf a => rw [hgd] at hs; cases hs
        | dict mb ms =>
          rw [hgd] at hs
          dsimp only at hs
          cases hsc : sort_children es with
          | error e => rw [hsc] at hs; cases hs
          | ok cs =>
            have hc : c ≠ "methods" := hcl c (by simp)
            rcases sort_children_block es c v cs hc hl hsc with ⟨ov, pre, suf, h1, h2⟩
            exact sort_descend_total segs v mNode ov (fun s hsm => hcl s (by simp [hsm])) hd h1

/-- A node's own POST sample is in its sorted output. -/
theorem methodAt_mem_sort_post {α : Type} (n : PyObj α) (om : List (PyObj α)) (v : PyObj α)
    (hv : methodAt n .post = some v) (hs : sort_samples n = .ok om) : v ∈ om := by
  cases n with
  | leaf a => cases hs
  | dict b es =>
    rw [sort_samples_dict_def] at hs
    cases hgd : (es.lookup (.strK "methods")).getD (.dict false .nil) with
    | leaf a => rw [hgd] at hs; cases hs
    | dict mb ms =>
      rw [hgd] at hs
      dsimp only at hs
      cases hsc : sort_children es with
      | error e => rw [hsc] at hs; cases hs
      | ok cs =>
        rw [hsc] at hs
        dsimp only at hs
        rw [methodAt_eq_of_getD b es mb ms hgd] at hv
        rw [← Except.ok.inj hs]
        simp [hv, optList]

/-- A node's own DELETE sample is in its sorted output. -/
theorem methodAt_mem_sort_delete {α : Type} (n : PyObj α) (om : List (PyObj α)) (v : PyObj α)
    (hv : methodAt n .delete = some v) (hs : sort_samples n = .ok om) : v ∈ om := by
  cases n with
  | leaf a => cases hs
  | dict b es =>
    rw [sort_samples_dict_def] at hs
    cases hgd : (es.lookup (.strK "methods")).getD (.dict false .nil) with
    | leaf a => rw [hgd] at hs; cases hs
    | dict mb ms =>
      rw [hgd] at hs
      dsimp only at hs
      cases hsc : sort_children es with
      | error e => rw [hsc] at hs; cases hs
      | ok cs =>
        rw [hsc] at hs
        dsimp only at hs
        rw [methodAt_eq_of_getD b es mb ms hgd] at hv
        rw [← Except.ok.inj hs]
        simp [hv, optList]

/-- Core of the ordering claims: the sorted output of a node is a
concatenation `pre ++ (descendant output ++ suf)` for any strict descendant
along non-`'methods'` keys, with the node's own POST in `pre` (before the
descendant) and its own DELETE in `suf` (after the descendant). -/
theorem sort_descend_block {α : Type} :
    ∀ (segs : List String) (n mNode : PyObj α) (out om : List (PyObj α)),
      segs ≠ [] → (∀ s ∈ segs, s ≠ "methods") → descend n segs = some mNode →
      sort_samples n = .ok out → sort_samples mNode = .ok om →
      ∃ pre suf, out = pre ++ (om ++ suf) ∧
        (∀ v, methodAt n .post = some v → v ∈ pre) ∧
        (∀ w, methodAt n .delete = some w → w ∈ suf)
  | [], _, _, _, _, hne, _, _, _, _ => absurd rfl hne
  | c :: segs, n, mNode, out, om, hne, hcl, hd, hs, hsm => by
    cases n with
    | leaf a => cases hs
    | dict b es =>
      rw [descend_cons] at hd
      cases hl : es.lookup (.strK c) with
      | none => rw [hl] at hd; cases hd
      | some v =>
        rw [hl] at hd
        dsimp only at hd
        rw [sort_samples_dict_def] at hs
        cases hgd : (es.lookup (.strK "methods")).getD (.dict false .nil) with
        | leaf a => rw [hgd] at hs; cases hs
        | dict mb ms =>
          rw [hgd] at hs
          dsimp only at hs
          cases hsc : sort_children es with
          | error e => rw [hsc] at hs; cases hs
          | ok cs =>
            rw [hsc] at hs
            dsimp only at hs
            have hout : out = optList (ms.lookup (.methK .post)) ++
                optList (ms.lookup (.methK .get)) ++ optList (ms.lookup (.methK .put)) ++
                cs ++ optList (ms.lookup (.methK .delete)) := (Except.ok.inj hs).symm
            have hc : c ≠ "methods" := hcl c (by simp)
            rcases sort_children_block es c v cs hc hl hsc with ⟨ov, pre', suf', hov, hcs⟩
            cases segs with
            | nil =>
              rw [descend_nil] at hd
              cases Option.some.inj hd
              have hov2 : ov = om := Except.ok.inj (hov.symm.trans hsm)
              refine ⟨optList (ms.lookup (.methK .post)) ++ optList (ms.lookup (.methK .get)) ++
                  optList (ms.lookup (.methK .put)) ++ pre',
                suf' ++ optList (ms.lookup (.methK .delete)), ?_, ?_, ?_⟩
              · rw [hout, hcs, hov2]
                simp [List.append_assoc]
              · intro u hu
                rw [methodAt_eq_of_getD b es mb ms hgd] at hu
                simp [hu, optList]
              · intro w hw
                rw [methodAt_eq_of_getD b es mb ms hgd] at hw
                simp [hw, optList]
            | cons c2 segs2 =>
              rcases sort_descend_block (c2 :: segs2) v mNode ov om (by simp)
                  (fun s hsm2 => hcl s (by simp [hsm2])) hd hov hsm with
                ⟨pre₂, suf₂, hov2, _, _⟩
              refine ⟨optList (ms.lookup (.methK .post)) ++ optList (ms.lookup (.methK .get)) ++
                  optList (ms.lookup (.methK .put)) ++ pre' ++ pre₂,
                suf₂ ++ suf' ++ optList (ms.lookup (.methK .delete)), ?_, ?_, ?_⟩
              · rw [hout, hcs, hov2]
                simp [List.append_assoc]
              · intro u hu
                rw [methodAt_eq_of_getD b es mb ms hgd] at hu
                simp [hu, optList]
              · intro w hw
                rw [methodAt_eq_of_getD b es mb ms hgd] at hw
                simp [hw, optList]

/-- Counterexample for C2 as stated: inserting POST at path `x/methods` and
then POST at path `x` succeeds, the two paths form a chain (`p = x`,
`c = methods`), both trie nodes carry a POST sample, yet the output of
`list_sorted_samples` is just the parent's POST — the child's POST is never
emitted at all, so the parent's POST cannot precede it. -/
theorem claim_C2_cex :
    pySplit (sampleKey (⟨.python, "x/methods", .post⟩ : CodeSample)) =
      pySplit (sampleKey (⟨.python, "x", .post⟩ : CodeSample)) ++ ["methods"] ∧
    ∃ t : CodeSamplesTree,
      CodeSamplesTree.empty.putList
          [⟨.python, "x/methods", .post⟩, ⟨.python, "x", .post⟩] = .ok t ∧
      (∃ n₁, descend t.tree (pySplit (sampleKey (⟨.python, "x", .post⟩ : CodeSample))) =
          some n₁ ∧
        methodAt n₁ .post = some (.leaf ⟨.python, "x", .post⟩) ∧
        ∃ n₂, descend n₁ ["methods"] = some n₂ ∧
          methodAt n₂ .post = some (.leaf ⟨.python, "x/methods", .post⟩)) ∧
      t.list_sorted_samples = .ok [.leaf ⟨.python, "x", .post⟩] ∧
      ¬∃ l₁ l₂ l₃, ([.leaf ⟨.python, "x", .post⟩] : List (PyObj CodeSample)) =
        l₁ ++ .leaf (⟨.python, "x", .post⟩ : CodeSample) ::
          (l₂ ++ .leaf (⟨.python, "x/methods", .post⟩ : CodeSample) :: l₃) := by
  refine ⟨by decide, _, rfl, ⟨_, rfl, rfl, _, rfl, rfl⟩, rfl, ?_⟩
  rintro ⟨l₁, l₂, l₃, h⟩
  have hm : (PyObj.leaf (⟨.python, "x/methods", .post⟩ : CodeSample)) ∈
      l₁ ++ .leaf (⟨.python, "x", .post⟩ : CodeSample) ::
        (l₂ ++ .leaf (⟨.python, "x/methods", .post⟩ : CodeSample) :: l₃) := by
    simp
  rw [← h] at hm
  simp at hm

/-- Claim C2, amended: for nodes `n₁` at path `p` and `n₂` at the extended
path `p ++ q` (a chain), provided no segment of the chain path equals the
reserved dict key `'methods'`, the POST stored at `n₁` precedes the POST
stored at `n₂` in the sorted output, and the DELETE stored at `n₁` comes
after the DELETE stored at `n₂`. -/
theorem claim_C2 {α : Type} (t : PyObj α) (p q : List String) (n₁ n₂ : PyObj α)
    (out : List (PyObj α)) (hq : q ≠ []) (hclean : ∀ s ∈ p ++ q, s ≠ "methods")
    (hd1 : descend t p = some n₁) (hd2 : descend n₁ q = some n₂)
    (hsort : sort_samples t = .ok out) :
    (∀ sp sc, methodAt n₁ .post = some sp → methodAt n₂ .post = some sc →
      ∃ l₁ l₂ l₃, out = l₁ ++ sp :: (l₂ ++ sc :: l₃)) ∧
    (∀ dp dc, methodAt n₁ .delete = some dp → methodAt n₂ .delete = some dc →
      ∃ l₁ l₂ l₃, out = l₁ ++ dc :: (l₂ ++ dp :: l₃)) := by
  have hcp : ∀ s ∈ p, s ≠ "methods" := fun s hs => hclean s (by simp [hs])
  have hcq : ∀ s ∈ q, s ≠ "methods" := fun s hs => hclean s (by simp [hs])
  obtain ⟨out₁, hs₁⟩ := sort_descend_total p t n₁ out hcp hd1 hsort
  have hemb : ∃ a b, out = a ++ (out₁ ++ b) := by
    cases p with
    | nil =>
      rw [descend_nil] at hd1
      cases Option.some.inj hd1
      exact ⟨[], [], by simpa using Except.ok.inj (hsort.symm.trans hs₁)⟩
    | cons c p2 =>
      rcases sort_descend_block (c :: p2) t n₁ out out₁ (by simp) hcp hd1 hsort hs₁ with
        ⟨a, b, h, _, _⟩
      exact ⟨a, b, h⟩
  obtain ⟨a, b, hab⟩ := hemb
  obtain ⟨om, hs₂⟩ := sort_descend_total q n₁ n₂ out₁ hcq hd2 hs₁
  rcases sort_descend_block q n₁ n₂ out₁ om hq hcq hd2 hs₁ hs₂ with
    ⟨pre, suf, hdec, hpost, hdel⟩
  constructor
  · intro sp sc hsp hsc
    have h1 : sp ∈ pre := hpost sp hsp
    have h2 : sc ∈ om := methodAt_mem_sort_post n₂ om sc hsc hs₂
    rcases List.append_of_mem h1 with ⟨u, w, hu⟩
    rcases List.append_of_mem h2 with ⟨u2, w2, hu2⟩
    refine ⟨a ++ u, w ++ u2, w2 ++ suf ++ b, ?_⟩
    rw [hab, hdec, hu, hu2]
    simp [List.append_assoc]
  · intro dp dc hdp hdc
    have h1 : dp ∈ suf := hdel dp hdp
    have h2 : dc ∈ om := methodAt_mem_sort_delete n₂ om dc hdc hs₂
    rcases List.append_of_mem h2 with ⟨u2, w2, hu2⟩
    rcases List.append_of_mem h1 with ⟨u, w, hu⟩
    refine ⟨a ++ pre ++ u2, w2 ++ u, w ++ b, ?_⟩
    rw [hab, hdec, hu, hu2]
    simp [List.append_assoc]

/-- Witness for C2: a concrete chain `a`, `a/b`, each holding a POST and a
DELETE sample. -/
theorem claim_C2_wit :
    (∃ l₁ l₂ l₃, ([.leaf ⟨.python, "a", .post⟩, .leaf ⟨.python, "a/b", .post⟩,
        .leaf ⟨.python, "a/b", .delete⟩, .leaf ⟨.python, "a", .delete⟩] :
        List (PyObj CodeSample)) =
        l₁ ++ .leaf ⟨.python, "a", .post⟩ :: (l₂ ++ .leaf ⟨.python, "a/b", .post⟩ :: l₃)) ∧
    (∃ l₁ l₂ l₃, ([.leaf ⟨.python, "a", .post⟩, .leaf ⟨.python, "a/b", .post⟩,
        .leaf ⟨.python, "a/b", .delete⟩, .leaf ⟨.python, "a", .delete⟩] :
        List (PyObj CodeSample)) =
        l₁ ++ .leaf ⟨.python, "a/b", .delete⟩ :: (l₂ ++ .leaf ⟨.python, "a", .delete⟩ :: l₃)) := by
  have h := claim_C2
    ((.dict false (.cons (.strK "a") (.dict true (.cons (.strK "methods")
      (.dict false (.cons (.methK .post) (.leaf ⟨.python, "a", .post⟩)
        (.cons (.methK .delete) (.leaf ⟨.python, "a", .delete⟩) .nil)))
      (.cons (.strK "b") (.dict true (.cons (.strK "methods")
        (.dict false (.cons (.methK .post) (.leaf ⟨.python, "a/b", .post⟩)
          (.cons (.methK .delete) (.leaf ⟨.python, "a/b", .delete⟩) .nil))) .nil)) .nil))) .nil))
      : PyObj CodeSample)
    ["a"] ["b"]
    (.dict true (.cons (.strK "methods")
      (.dict false (.cons (.methK .post) (.leaf ⟨.python, "a", .post⟩)
        (.cons (.methK .delete) (.leaf ⟨.python, "a", .delete⟩) .nil)))
      (.cons (.strK "b") (.dict true (.cons (.strK "methods")
        (.dict false (.cons (.methK .post) (.leaf ⟨.python, "a/b", .post⟩)
          (.cons (.methK .delete) (.leaf ⟨.python, "a/b", .delete⟩) .nil))) .nil)) .nil)))
    (.dict true (.cons (.strK "methods")
      (.dict false (.cons (.methK .post) (.leaf ⟨.python, "a/b", .post⟩)
        (.cons (.methK .delete) (.leaf ⟨.python, "a/b", .delete⟩) .nil))) .nil))
    [.leaf ⟨.python, "a", .post⟩, .leaf ⟨.python, "a/b", .post⟩,
      .leaf ⟨.python, "a/b", .delete⟩, .leaf ⟨.python, "a", .delete⟩]
    (by decide) (by decide) rfl rfl rfl
  exact ⟨h.1 _ _ rfl rfl, h.2 _ _ rfl rfl⟩

/-! ## Claim C9: methods outside POST/GET/PUT/DELETE -/

@[simp] theorem mcObj_leaf (s : CodeSample) : mcObj (.leaf s) = true := rfl

@[simp] theorem mcObj_dict (b : Bool) (es : Entries CodeSample) :
    mcObj (.dict b es) = mcEntries es := rfl

@[simp] theorem mcEntries_nil : mcEntries .nil = true := rfl

@[simp] theorem mcEntries_cons (k : PyKey) (v : PyObj CodeSample)
    (rest : Entries CodeSample) :
    mcEntries (.cons k v rest) = (mcPair k v && mcEntries rest) := by
  cases k <;> cases v <;> rfl

theorem mcPair_obj (k : PyKey) (v : PyObj CodeSample) (h : mcPair k v = true) :
    mcObj v = true := by
  cases k <;> cases v <;> simp_all [mcPair]

theorem mc_set (es : Entries CodeSample) (k : PyKey) (v : PyObj CodeSample)
    (hes : mcEntries es = true) (hv : mcPair k v = true) :
    mcEntries (es.set k v) = true := by
  induction es using Entries.inductionOn with
  | hnil => simp [hv]
  | hcons k' w rest ih =>
    simp only [mcEntries_cons, Bool.and_eq_true] at hes
    by_cases hk : k = k' <;> simp_all

theorem mc_lookup (es : Entries CodeSample) (k : PyKey) (v : PyObj CodeSample)
    (hes : mcEntries es = true) (hl : es.lookup k = some v) : mcPair k v = true := by
  induction es using Entries.inductionOn with
  | hnil => simp at hl
  | hcons k' w rest ih =>
    simp only [mcEntries_cons, Bool.and_eq_true] at hes
    rw [Entries.lookup_cons] at hl
    by_cases hk : k = k'
    · rw [if_pos hk] at hl
      cases Option.some.inj hl
      rw [hk]
      exact hes.1
    · rw [if_neg hk] at hl
      exact ih hes.2 hl

theorem mc_lookup_meth (ms : Entries CodeSample) (h : HttpMethod) (s : CodeSample)
    (hms : mcEntries ms = true) (hl : ms.lookup (.methK h) = some (.leaf s)) :
    s.http_method = h := by
  have := mc_lookup ms (.methK h) (.leaf s) hms hl
  simpa [mcPair] using this

theorem mc_ensuredChildVal (es : Entries CodeSample) (c : String)
    (hes : mcEntries es = true) : mcObj (ensuredChildVal es c) = true := by
  unfold ensuredChildVal
  split
  · cases hl : es.lookup (.strK c) with
    | none => simp
    | some v => simpa using mcPair_obj _ _ (mc_lookup es (.strK c) v hes hl)
  · simp

theorem mc_ensureChild (es : Entries CodeSample) (c : String)
    (hes : mcEntries es = true) : mcEntries (ensureChild es c) = true := by
  unfold ensureChild
  split
  · exact hes
  · exact mc_set es _ _ hes (by simp [mcPair])

/-- `put` preserves method-consistency: the only payload write is at the key
`sample.http_method` with the sample itself. -/
theorem mc_putPath : ∀ (parts : List String) (t : PyObj CodeSample) (s : CodeSample)
    (t' : PyObj CodeSample), mcObj t = true →
    putPath t parts s.http_method s = .ok t' → mcObj t' = true
  | [], t, s, t', hmc, h => by
    cases t with
    | leaf a => cases h
    | dict b es => cases Except.ok.inj h; exact hmc
  | c :: rest, t, s, t', hmc, h => by
    cases t with
    | leaf a => cases h
    | dict b es =>
      rw [putPath_cons_eval] at h
      simp only [mcObj_dict] at hmc
      have hes1 : mcEntries (ensureChild es c) = true := mc_ensureChild es c hmc
      by_cases hf : furtherEmpty rest
      · rw [if_pos hf] at h
        cases hv : ensuredChildVal es c with
        | leaf a => rw [hv] at h; cases h
        | dict vd ves =>
          rw [hv] at h
          dsimp only at h
          have hves : mcEntries ves = true := by
            have := mc_ensuredChildVal es c hmc
            rw [hv] at this
            simpa using this
          cases hms : ves.lookup (.strK "methods") with
          | none =>
            rw [hms] at h
            dsimp only at h
            by_cases hvd : vd = true
            · subst hvd
              rw [if_pos rfl] at h
              cases Except.ok.inj h
              simp only [mcObj_dict]
              refine mc_set _ _ _ hes1 ?_
              simp only [mcPair, mcObj_dict]
              refine mc_set _ _ _ hves ?_
              simp only [mcPair, mcObj_dict]
              exact mc_set _ _ _ rfl (by simp [mcPair])
            · have : vd = false := by cases vd <;> simp_all
              subst this
              rw [if_neg (by simp)] at h
              cases h
          | some w =>
            rw [hms] at h
            cases w with
            | leaf a => cases h
            | dict md ms =>
              dsimp only at h
              cases Except.ok.inj h
              have hmsmc : mcEntries ms = true := by
                have := mcPair_obj _ _ (mc_lookup ves (.strK "methods") _ hves hms)
                simpa using this
              simp only [mcObj_dict]
              refine mc_set _ _ _ hes1 ?_
              simp only [mcPair, mcObj_dict]
              refine mc_set _ _ _ hves ?_
              simp only [mcPair, mcObj_dict]
              exact mc_set _ _ _ hmsmc (by simp [mcPair])
      · rw [if_neg hf] at h
        cases hrec : putPath (ensuredChildVal es c) rest s.http_method s with
        | error e => rw [hrec] at h; cases h
        | ok v2 =>
          rw [hrec] at h
          dsimp only at h
          cases Except.ok.inj h
          have hv2 : mcObj v2 = true :=
            mc_putPath rest (ensuredChildVal es c) s v2 (mc_ensuredChildVal es c hmc) hrec
          simp only [mcObj_dict]
          exact mc_set _ _ _ hes1 (by simp [mcPair, hv2])

/-- Method-consistency of every state reachable by `put` calls. -/
theorem mc_putList : ∀ (ss : List CodeSample) (t t' : CodeSamplesTree),
    mcObj t.tree = true → t.putList ss = .ok t' → mcObj t'.tree = true
  | [], t, t', hmc, h => by
    unfold CodeSamplesTree.putList at h
    cases Except.ok.inj h
    exact hmc
  | s :: rest, t, t', hmc, h => by
    unfold CodeSamplesTree.putList CodeSamplesTree.put at h
    cases hput : putPath t.tree (pySplit (sampleKey s)) s.http_method s with
    | error e => rw [hput] at h; cases h
    | ok t2 =>
      rw [hput] at h
      dsimp only at h
      exact mc_putList rest ⟨t2⟩ t' (mc_putPath _ _ _ _ hmc hput) h

theorem mem_optList {α : Type} (x : PyObj α) (o : Option (PyObj α)) :
    x ∈ optList o ↔ o = some x := by
  cases o <;> simp [optList]
  exact eq_comm

mutual
/-- In a method-consistent tree, every sample emitted by `_sort_samples`
carries one of the four methods the traversal looks up, node side. -/
theorem mc_sort_emits : ∀ (n : PyObj CodeSample) (out : List (PyObj CodeSample)),
    mcObj n = true → sort_samples n = .ok out → ∀ s : CodeSample, .leaf s ∈ out →
      s.http_method = .post ∨ s.http_method = .get ∨ s.http_method = .put ∨
        s.http_method = .delete
  | .leaf a, out, hmc, hs, s, hmem => by cases hs
  | .dict b es, out, hmc, hs, s, hmem => by
    rw [sort_samples_dict_def] at hs
    cases hgd : (es.lookup (.strK "methods")).getD (.dict false .nil) with
    | leaf a => rw [hgd] at hs; cases hs
    | dict mb ms =>
      rw [hgd] at hs
      dsimp only at hs
      cases hsc : sort_children es with
      | error e => rw [hsc] at hs; cases hs
      | ok cs =>
        rw [hsc] at hs
        dsimp only at hs
        have hms : mcEntries ms = true := by
          cases hl : es.lookup (.strK "methods") with
          | none =>
            rw [hl] at hgd
            simp only [Option.getD_none] at hgd
            injection hgd with h1 h2
            subst h2
            rfl
          | some w =>
            rw [hl] at hgd
            simp only [Option.getD_some] at hgd
            subst hgd
            have := mcPair_obj _ _ (mc_lookup es (.strK "methods") _ (by simpa using hmc) hl)
            simpa using this
        have hout := (Except.ok.inj hs).symm
        rw [hout] at hmem
        simp only [List.mem_append, mem_optList] at hmem
        rcases hmem with ((((h1 | h2) | h3) | h4) | h5)
        · exact Or.inl (mc_lookup_meth ms _ s hms h1)
        · exact Or.inr (Or.inl (mc_lookup_meth ms _ s hms h2))
        · exact Or.inr (Or.inr (Or.inl (mc_lookup_meth ms _ s hms h3)))
        · exact mc_children_emits es cs (by simpa using hmc) hsc s h4
        · exact Or.inr (Or.inr (Or.inr (mc_lookup_meth ms _ s hms h5)))

/-- In a method-consistent tree, every sample emitted by `_sort_samples`
carries one of the four methods the traversal looks up, entries side. -/
theorem mc_children_emits : ∀ (es : Entries CodeSample) (cs : List (PyObj CodeSample)),
    mcEntries es = true → sort_children es = .ok cs → ∀ s : CodeSample, .leaf s ∈ cs →
      s.http_method = .post ∨ s.http_method = .get ∨ s.http_method = .put ∨
        s.http_method = .delete
  | .nil, cs, hmc, hs, s, hmem => by
    cases Except.ok.inj hs
    simp at hmem
  | .cons k v rest, cs, hmc, hs, s, hmem => by
    rw [sort_children_cons_def] at hs
    simp only [mcEntries_cons, Bool.and_eq_true] at hmc
    by_cases hk : k = .strK "methods"
    · rw [if_pos hk] at hs
      exact mc_children_emits rest cs hmc.2 hs s hmem
    · rw [if_neg hk] at hs
      cases hsv : sort_samples v with
      | error e => rw [hsv] at hs; cases hs
      | ok ow =>
        rw [hsv] at hs
        dsimp only at hs
        cases hsr : sort_children rest with
        | error e => rw [hsr] at hs; cases hs
        | ok orest =>
          rw [hsr] at hs
          dsimp only at hs
          cases Except.ok.inj hs
          rcases List.mem_append.mp hmem with h1 | h2
          · exact mc_sort_emits v ow (mcPair_obj _ _ hmc.1) hsv s h1
          · exact mc_children_emits rest orest hmc.2 hsr s h2
end

/-- Claim C9: a sample whose HTTP method is outside
`{POST, GET, PUT, DELETE}` (modelled by `patch`) is stored in the tree by
`put` but never emitted by `list_sorted_samples`. -/
theorem claim_C9 :
    (∀ (ss : List CodeSample) (t : CodeSamplesTree) (out : List (PyObj CodeSample))
        (s : CodeSample), CodeSamplesTree.empty.putList ss = .ok t →
        t.list_sorted_samples = .ok out → s.http_method = .patch → .leaf s ∉ out) ∧
    (CodeSamplesTree.empty.put ⟨.python, "items", .patch⟩ =
        .ok ⟨.dict false (.cons (.strK "pythonitems") (.dict true (.cons (.strK "methods")
          (.dict false (.cons (.methK .patch) (.leaf ⟨.python, "items", .patch⟩) .nil))
          .nil)) .nil)⟩ ∧
      (CodeSamplesTree.empty.put ⟨.python, "items", .patch⟩).map
        CodeSamplesTree.list_sorted_samples = .ok (.ok [])) := by
  refine ⟨?_, rfl, rfl⟩
  intro ss t out s hput hsort hpatch hmem
  have hmc : mcObj t.tree = true := mc_putList ss CodeSamplesTree.empty t rfl hput
  rcases mc_sort_emits t.tree out hmc hsort s hmem with h | h | h | h <;>
    rw [hpatch] at h <;> cases h

/-- Witness for C9: the PATCH sample inserted into the empty tree is not in
the (empty) sorted output. -/
theorem claim_C9_wit :
    (.leaf (⟨.python, "items", .patch⟩ : CodeSample)) ∉ ([] : List (PyObj CodeSample)) :=
  claim_C9.1 [⟨.python, "items", .patch⟩]
    ⟨.dict false (.cons (.strK "pythonitems") (.dict true (.cons (.strK "methods")
      (.dict false (.cons (.methK .patch) (.leaf ⟨.python, "items", .patch⟩) .nil))
      .nil)) .nil)⟩ [] ⟨.python, "items", .patch⟩ rfl rfl rfl

/-! ## Claim C5: amended exception-freedom on clean paths -/

@[simp] theorem wfEntries_nil {α : Type} : wfEntries (.nil : Entries α) = true := rfl

@[simp] theorem wfEntries_cons_str {α : Type} (k : String) (v : PyObj α) (rest : Entries α) :
    wfEntries (.cons (.strK k) v rest) =
      ((if k = "methods" then wfPayload v else wfObjChild v) && wfEntries rest) := rfl

@[simp] theorem wfEntries_cons_meth {α : Type} (h : HttpMethod) (v : PyObj α)
    (rest : Entries α) : wfEntries (.cons (.methK h) v rest) = false := rfl

@[simp] theorem wfMethods_nil {α : Type} : wfMethods (.nil : Entries α) = true := rfl

@[simp] theorem wfMethods_cons_meth_leaf {α : Type} (h : HttpMethod) (a : α)
    (rest : Entries α) : wfMethods (.cons (.methK h) (.leaf a) rest) = wfMethods rest := rfl

theorem wfMethods_lookup_str {α : Type} (ms : Entries α) (s : String)
    (h : wfMethods ms = true) : ms.lookup (.strK s) = none := by
  induction ms using Entries.inductionOn with
  | hnil => rfl
  | hcons k v rest ih =>
    cases k with
    | strK k2 => simp [wfMethods] at h
    | methK h2 =>
      cases v with
      | dict b es => simp [wfMethods] at h
      | leaf a =>
        rw [wfMethods_cons_meth_leaf] at h
        rw [Entries.lookup_cons, if_neg (by simp)]
        exact ih h

theorem wfMethods_lookup_leaf {α : Type} (ms : Entries α) (k : PyKey) (v : PyObj α)
    (h : wfMethods ms = true) (hl : ms.lookup k = some v) : ∃ a, v = .leaf a := by
  induction ms using Entries.inductionOn with
  | hnil => simp at hl
  | hcons k2 w rest ih =>
    cases k2 with
    | strK s => simp [wfMethods] at h
    | methK h2 =>
      cases w with
      | dict b es => simp [wfMethods] at h
      | leaf a =>
        rw [wfMethods_cons_meth_leaf] at h
        rw [Entries.lookup_cons] at hl
        by_cases hk : k = .methK h2
        · rw [if_pos hk] at hl
          exact ⟨a, (Option.some.inj hl).symm⟩
        · rw [if_neg hk] at hl
          exact ih h hl

theorem wfMethods_set {α : Type} (ms : Entries α) (h : HttpMethod) (a : α)
    (hms : wfMethods ms = true) :
    wfMethods (ms.set (.methK h) (.leaf a)) = true := by
  induction ms using Entries.inductionOn with
  | hnil => simp
  | hcons k w rest ih =>
    cases k with
    | strK s => simp [wfMethods] at hms
    | methK h2 =>
      cases w with
      | dict b es => simp [wfMethods] at hms
      | leaf a2 =>
        rw [wfMethods_cons_meth_leaf] at hms
        rw [Entries.set_cons]
        by_cases hk : (PyKey.methK h) = .methK h2
        · rw [if_pos hk]
          simpa using hms
        · rw [if_neg hk]
          rw [wfMethods_cons_meth_leaf]
          exact ih hms

theorem wfEntries_lookup {α : Type} (es : Entries α) (c : String) (v : PyObj α)
    (hes : wfEntries es = true) (hl : es.lookup (.strK c) = some v) :
    (if c = "methods" then wfPayload v else wfObjChild v) = true := by
  induction es using Entries.inductionOn with
  | hnil => simp at hl
  | hcons k w rest ih =>
    cases k with
    | methK h2 => simp at hes
    | strK k2 =>
      rw [wfEntries_cons_str, Bool.and_eq_true] at hes
      rw [Entries.lookup_cons] at hl
      by_cases hk : (PyKey.strK c) = .strK k2
      · rw [if_pos hk] at hl
        cases Option.some.inj hl
        injection hk with hk2
        subst hk2
        exact hes.1
      · rw [if_neg hk] at hl
        exact ih hes.2 hl

theorem wfEntries_set {α : Type} (es : Entries α) (c : String) (v : PyObj α)
    (hes : wfEntries es = true)
    (hv : (if c = "methods" then wfPayload v else wfObjChild v) = true) :
    wfEntries (es.set (.strK c) v) = true := by
  induction es using Entries.inductionOn with
  | hnil => simp [hv]
  | hcons k w rest ih =>
    cases k with
    | methK h2 => simp at hes
    | strK k2 =>
      rw [wfEntries_cons_str, Bool.and_eq_true] at hes
      rw [Entries.set_cons]
      by_cases hk : (PyKey.strK c) = .strK k2
      · rw [if_pos hk]
        injection hk with hk2
        subst hk2
        simp [hv, hes.2]
      · rw [if_neg hk]
        simp [hes.1, ih hes.2]

theorem wf_ensureChild {α : Type} (es : Entries α) (c : String) (hc : c ≠ "methods")
    (hes : wfEntries es = true) : wfEntries (ensureChild es c) = true := by
  unfold ensureChild
  split
  · exact hes
  · exact wfEntries_set es c _ hes (by simp [hc, wfObjChild])

theorem wf_ensuredChildVal {α : Type} (es : Entries α) (c : String) (hc : c ≠ "methods")
    (hes : wfEntries es = true) : wfObjChild (ensuredChildVal es c) = true := by
  unfold ensuredChildVal
  split
  · rename_i ht
    cases hl : es.lookup (.strK c) with
    | none => rw [hl] at ht; simp [truthyOpt] at ht
    | some v =>
      have := wfEntries_lookup es c v hes hl
      rw [if_neg hc] at this
      simp [hl, this]
  · simp [wfObjChild]

/-- On a well-formed node, `putPath` along a path avoiding the segment
`'methods'` always succeeds and preserves well-formedness. -/
theorem wf_putPath {α : Type} :
    ∀ (parts : List String) (es : Entries α) (b : Bool) (m : HttpMethod) (p : α),
      wfEntries es = true → (∀ seg ∈ parts, seg ≠ "methods") →
      ∃ es', putPath (.dict b es) parts m p = .ok (.dict b es') ∧ wfEntries es' = true
  | [], es, b, m, p, hes, hcl => ⟨es, rfl, hes⟩
  | c :: rest, es, b, m, p, hes, hcl => by
    have hc : c ≠ "methods" := hcl c (by simp)
    rw [putPath_cons_eval]
    have hval := wf_ensuredChildVal es c hc hes
    have hens := wf_ensureChild es c hc hes
    cases hv : ensuredChildVal es c with
    | leaf a => rw [hv] at hval; simp [wfObjChild] at hval
    | dict vd ves =>
      rw [hv] at hval
      cases vd with
      | false => simp [wfObjChild] at hval
      | true =>
        have hves : wfEntries ves = true := by simpa [wfObjChild] using hval
        by_cases hf : furtherEmpty rest
        · rw [if_pos hf]
          dsimp only
          cases hms : ves.lookup (.strK "methods") with
          | none =>
            rw [if_pos rfl]
            refine ⟨_, rfl, ?_⟩
            refine wfEntries_set _ c _ hens ?_
            rw [if_neg hc]
            simp only [wfObjChild]
            refine wfEntries_set _ "methods" _ hves ?_
            simp [wfPayload]
          | some w =>
            have hw := wfEntries_lookup ves "methods" w hves hms
            rw [if_pos rfl] at hw
            cases w with
            | leaf a => simp [wfPayload] at hw
            | dict md ms =>
              cases md with
              | true => simp [wfPayload] at hw
              | false =>
                have hmsut : wfMethods ms = true := by simpa [wfPayload] using hw
                refine ⟨_, rfl, ?_⟩
                refine wfEntries_set _ c _ hens ?_
                rw [if_neg hc]
                simp only [wfObjChild]
                refine wfEntries_set _ "methods" _ hves ?_
                simp [wfPayload, wfMethods_set ms m p hmsut]
        · rw [if_neg hf]
          rcases wf_putPath rest ves true m p hves (fun seg hseg => hcl seg (by simp [hseg]))
            with ⟨ves', hrec, hwf'⟩
          rw [hrec]
          dsimp only
          refine ⟨_, rfl, ?_⟩
          refine wfEntries_set _ c _ hens ?_
          rw [if_neg hc]
          simpa [wfObjChild] using hwf'

mutual
/-- On well-formed node entries, `_sort_samples` never raises, node side. -/
theorem wf_sort_total {α : Type} : ∀ (es : Entries α) (b : Bool),
    wfEntries es = true → ∃ out, sort_samples (.dict b es) = .ok out
  | es, b, hes => by
    rw [sort_samples_dict_def]
    rcases wf_children_total es hes with ⟨cs, hcs⟩
    cases hl : es.lookup (.strK "methods") with
    | none =>
      simp only [Option.getD_none]
      rw [hcs]
      exact ⟨_, rfl⟩
    | some w =>
      have hw := wfEntries_lookup es "methods" w hes hl
      rw [if_pos rfl] at hw
      cases w with
      | leaf a => simp [wfPayload] at hw
      | dict md ms =>
        simp only [Option.getD_some]
        rw [hcs]
        exact ⟨_, rfl⟩

/-- On well-formed node entries, `_sort_samples` never raises, children
side. -/
theorem wf_children_total {α : Type} : ∀ (es : Entries α),
    wfEntries es = true → ∃ cs, sort_children es = .ok cs
  | .nil, _ => ⟨[], rfl⟩
  | .cons k v rest, hes => by
    cases k with
    | methK h2 => simp at hes
    | strK k2 =>
      rw [wfEntries_cons_str, Bool.and_eq_true] at hes
      rw [sort_children_cons_def]
      by_cases hk : k2 = "methods"
      · rw [if_pos (by rw [hk])]
        exact wf_children_total rest hes.2
      · rw [if_neg (by simp [hk])]
        have hv := hes.1
        rw [if_neg hk] at hv
        cases v with
        | leaf a => simp [wfObjChild] at hv
        | dict vd ves =>
          cases vd with
          | false => simp [wfObjChild] at hv
          | true =>
            rcases wf_sort_total ves true (by simpa [wfObjChild] using hv) with ⟨ov, hov⟩
            rw [hov]
            dsimp only
            rcases wf_children_total rest hes.2 with ⟨orest, horest⟩
            rw [horest]
            exact ⟨_, rfl⟩
end

/-- On a dict standing for a payload map (all entries `HttpMethod → leaf`),
`_get_parent_test_result` returns its incoming `current_parent` unchanged. -/
theorem wf_get_payload {α : Type} :
    ∀ (parts : List String) (ms : Entries α) (b : Bool) (cur : Option (PyObj α)),
      wfMethods ms = true → get_parent_test_result (.dict b ms) parts cur = .ok cur
  | [], ms, b, cur, hms => rfl
  | c :: rest, ms, b, cur, hms => by
    rw [get_parent_cons_def]
    rw [wfMethods_lookup_str ms "methods" hms]
    simp only [Option.getD_none]
    rw [wfMethods_lookup_str ms c hms]
    rfl

/-- On well-formed node entries, `_get_parent_test_result` never raises and
only ever returns `None` or a stored payload object. -/
theorem wf_get_total {α : Type} :
    ∀ (parts : List String) (es : Entries α) (b : Bool) (cur : Option (PyObj α)),
      wfEntries es = true → (∀ v, cur = some v → ∃ a, v = .leaf a) →
      ∃ r, get_parent_test_result (.dict b es) parts cur = .ok r ∧
        ∀ v, r = some v → ∃ a, v = .leaf a
  | [], es, b, cur, hes, hcur => ⟨cur, rfl, hcur⟩
  | c :: rest, es, b, cur, hes, hcur => by
    rw [get_parent_cons_def]
    have hmsdict : ∃ ms, (es.lookup (.strK "methods")).getD (.dict false .nil) =
        .dict false ms ∧ wfMethods ms = true := by
      cases hl : es.lookup (.strK "methods") with
      | none => exact ⟨.nil, by simp, rfl⟩
      | some w =>
        have hw := wfEntries_lookup es "methods" w hes hl
        rw [if_pos rfl] at hw
        cases w with
        | leaf a => simp [wfPayload] at hw
        | dict md ms =>
          cases md with
          | true => simp [wfPayload] at hw
          | false => exact ⟨ms, by simp, by simpa [wfPayload] using hw⟩
    rcases hmsdict with ⟨ms, hms, hmswf⟩
    rw [hms]
    dsimp only
    have hcur1 : ∀ v, (match ms.lookup (.methK .post) with
        | some v => some v
        | none => cur) = some v → ∃ a, v = .leaf a := by
      intro v hv
      cases hl : ms.lookup (.methK .post) with
      | none =>
        rw [hl] at hv
        dsimp only at hv
        exact hcur v hv
      | some w =>
        rw [hl] at hv
        dsimp only at hv
        exact (Option.some.inj hv) ▸ wfMethods_lookup_leaf ms (.methK .post) w hmswf hl
    cases hnd : es.lookup (.strK c) with
    | none => exact ⟨_, rfl, hcur1⟩
    | some nd =>
      dsimp only
      by_cases ht : nd.truthy = false
      · rw [if_pos ht]
        exact ⟨_, rfl, hcur1⟩
      · rw [if_neg ht]
        by_cases hf : furtherEmpty rest
        · rw [if_pos hf]
          exact ⟨_, rfl, hcur1⟩
        · rw [if_neg hf]
          have hw := wfEntries_lookup es c nd hes hnd
          by_cases hck : c = "methods"
          · rw [if_pos hck] at hw
            cases nd with
            | leaf a => simp [wfPayload] at hw
            | dict nb nes =>
              cases nb with
              | true => simp [wfPayload] at hw
              | false =>
                rw [wf_get_payload rest nes false _ (by simpa [wfPayload] using hw)]
                exact ⟨_, rfl, hcur1⟩
          · rw [if_neg hck] at hw
            cases nd with
            | leaf a => simp [wfObjChild] at hw
            | dict nb nes =>
              cases nb with
              | false => simp [wfObjChild] at hw
              | true =>
                exact wf_get_total rest nes true _ (by simpa [wfObjChild] using hw) hcur1

/-- Any sequence of inserts whose key paths avoid the reserved segment
`'methods'` succeeds and leaves both structures well-formed. -/
theorem runOps_wf : ∀ (ops : List Op) (es₁ : Entries CodeSample) (es₂ : Entries ApiTestResult),
    wfEntries es₁ = true → wfEntries es₂ = true →
    (∀ op ∈ ops, cleanParts (opKeyParts op)) →
    ∃ es₁' es₂', runOps ⟨⟨.dict false es₁⟩, ⟨.dict false es₂⟩⟩ ops =
        .ok ⟨⟨.dict false es₁'⟩, ⟨.dict false es₂'⟩⟩ ∧
      wfEntries es₁' = true ∧ wfEntries es₂' = true
  | [], es₁, es₂, h1, h2, _ => ⟨es₁, es₂, rfl, h1, h2⟩
  | op :: rest, es₁, es₂, h1, h2, hcl => by
    cases op with
    | opSample s =>
      have hc := hcl (.opSample s) (by simp)
      rcases wf_putPath (pySplit (sampleKey s)) es₁ false s.http_method s h1 hc with
        ⟨es₁', hput, hwf⟩
      rcases runOps_wf rest es₁' es₂ hwf h2 (fun op hop => hcl op (by simp [hop])) with
        ⟨ea, eb, hrun, ha, hb⟩
      refine ⟨ea, eb, ?_, ha, hb⟩
      simp only [runOps, runOp, CodeSamplesTree.put, hput]
      exact hrun
    | opResult r =>
      have hc := hcl (.opResult r) (by simp)
      rcases wf_putPath (pySplit r.sample.name) es₂ false r.sample.http_method r h2 hc with
        ⟨es₂', hput, hwf⟩
      rcases runOps_wf rest es₁ es₂' h1 hwf (fun op hop => hcl op (by simp [hop])) with
        ⟨ea, eb, hrun, ha, hb⟩
      refine ⟨ea, eb, ?_, ha, hb⟩
      simp only [runOps, runOp, TestExecutionResultMap.put, hput]
      exact hrun

/-- Claim C5, amended: provided no inserted key path contains a segment equal
to the reserved dict key `'methods'`, no operation of the core raises: every
`put` / `record` succeeds, `list_sorted_samples` succeeds, and
`get_parent_result` / `get_parent_body` succeed for every sample (missing
ancestors and bodies yielding `none` / `{}`). -/
theorem claim_C5 :
    ∀ (ops : List Op), (∀ op ∈ ops, cleanParts (opKeyParts op)) →
      ∃ st : SysState, runOps initState ops = .ok st ∧
        (∃ out, st.tree.list_sorted_samples = .ok out) ∧
        ∀ s : CodeSample, (∃ r, st.rmap.get_parent_result s = .ok r) ∧
          (∃ bd, st.rmap.get_parent_body s = .ok bd) := by
  intro ops hcl
  rcases runOps_wf ops .nil .nil rfl rfl hcl with ⟨es₁, es₂, hrun, h1, h2⟩
  refine ⟨_, hrun, ?_, ?_⟩
  · exact wf_sort_total es₁ false h1
  · intro s
    rcases wf_get_total (pySplit s.name) es₂ false none h2 (by simp) with ⟨r, hr, hleaf⟩
    refine ⟨⟨r, hr⟩, ?_⟩
    cases r with
    | none =>
      refine ⟨[], ?_⟩
      unfold TestExecutionResultMap.get_parent_body TestExecutionResultMap.get_parent_result
      rw [hr]
    | some v =>
      rcases hleaf v rfl with ⟨a, ha⟩
      subst ha
      refine ⟨a.json_body.getD [], ?_⟩
      unfold TestExecutionResultMap.get_parent_body TestExecutionResultMap.get_parent_result
      rw [hr]

/-- Witness for the amended C5 at a concrete clean operation sequence. -/
theorem claim_C5_wit :
    ∃ st : SysState,
      runOps initState [.opSample ⟨.python, "items", .post⟩,
        .opResult ⟨⟨.python, "items", .post⟩, some [("id", "1")]⟩] = .ok st ∧
        (∃ out, st.tree.list_sorted_samples = .ok out) ∧
        ∀ s : CodeSample, (∃ r, st.rmap.get_parent_result s = .ok r) ∧
          (∃ bd, st.rmap.get_parent_body s = .ok bd) :=
  claim_C5 [.opSample ⟨.python, "items", .post⟩,
    .opResult ⟨⟨.python, "items", .post⟩, some [("id", "1")]⟩] (by unfold cleanParts; decide)

/-! ## Claim C7: empty body defaults -/

/-- A successful insert along a non-empty path only rewrites the entry at the
first path segment (a string key). -/
theorem putPath_cons_ok_shape {α : Type} (b : Bool) (es : Entries α) (c : String)
    (rest : List String) (m : HttpMethod) (p : α) (t' : PyObj α)
    (h : putPath (.dict b es) (c :: rest) m p = .ok t') :
    ∃ X, t' = .dict b ((ensureChild es c).set (.strK c) X) := by
  rw [putPath_cons_eval] at h
  by_cases hf : furtherEmpty rest
  · rw [if_pos hf] at h
    cases hv : ensuredChildVal es c with
    | leaf a => rw [hv] at h; cases h
    | dict vd ves =>
      rw [hv] at h
      dsimp only at h
      cases hms : ves.lookup (.strK "methods") with
      | none =>
        rw [hms] at h
        dsimp only at h
        by_cases hvd : vd = true
        · subst hvd
          rw [if_pos rfl] at h
          exact ⟨_, (Except.ok.inj h).symm⟩
        · have : vd = false := by cases vd <;> simp_all
          subst this
          rw [if_neg (by simp)] at h
          cases h
      | some w =>
        rw [hms] at h
        cases w with
        | leaf a => cases h
        | dict md ms =>
          dsimp only at h
          exact ⟨_, (Except.ok.inj h).symm⟩
  · rw [if_neg hf] at h
    cases hrec : putPath (ensuredChildVal es c) rest m p with
    | error e => rw [hrec] at h; cases h
    | ok v2 =>
      rw [hrec] at h
      dsimp only at h
      exact ⟨v2, (Except.ok.inj h).symm⟩

/-- A successful insert never changes the `HttpMethod`-keyed entries at the
top level of the dict it is given (payload writes happen one level deeper). -/
theorem putPath_top_methK {α : Type} (parts : List String) (b : Bool) (es : Entries α)
    (m : HttpMethod) (p : α) (t' : PyObj α)
    (h : putPath (.dict b es) parts m p = .ok t') :
    ∃ es', t' = .dict b es' ∧
      ∀ h2 : HttpMethod, es'.lookup (.methK h2) = es.lookup (.methK h2) := by
  cases parts with
  | nil => exact ⟨es, (Except.ok.inj h).symm, fun _ => rfl⟩
  | cons c rest =>
    rcases putPath_cons_ok_shape b es c rest m p t' h with ⟨X, hX⟩
    refine ⟨_, hX, fun h2 => ?_⟩
    rw [Entries.lookup_set_ne _ _ _ _ (by simp), ensureChild_lookup_ne _ _ _ (by simp)]

/-- The value `ensureChild` guarantees at the key `'methods'`, in a state
whose top-level `'methods'` entry is clean. -/
theorem rmc_ensuredChildVal {α : Type} (b : Bool) (es : Entries α)
    (hP : rootMethodsClean (.dict b es)) (vd : Bool) (ves : Entries α)
    (hv : ensuredChildVal es "methods" = .dict vd ves) :
    ∀ h : HttpMethod, ves.lookup (.methK h) = none := by
  unfold ensuredChildVal at hv
  dsimp only [rootMethodsClean] at hP
  cases hl : es.lookup (.strK "methods") with
  | none =>
    rw [hl] at hv
    simp only [truthyOpt, if_neg] at hv
    injection hv with h1 h2
    subst h2
    exact fun _ => rfl
  | some w =>
    rw [hl] at hv
    rw [hl] at hP
    cases w with
    | leaf a => exact absurd hP (by simp)
    | dict wb wes =>
      by_cases ht : (PyObj.dict wb wes : PyObj α).truthy = true
      · rw [if_pos (by simpa [truthyOpt] using ht)] at hv
        simp only [Option.getD_some] at hv
        injection hv with h1 h2
        subst h2
        exact hP
      · rw [if_neg (by simpa [truthyOpt] using ht)] at hv
        injection hv with h1 h2
        subst h2
        exact fun _ => rfl

/-- Inserts preserve root-`'methods'` cleanliness. -/
theorem rmc_putPath {α : Type} (parts : List String) (b : Bool) (es : Entries α)
    (m : HttpMethod) (p : α) (t' : PyObj α)
    (hP : rootMethodsClean (.dict b es)) (h : putPath (.dict b es) parts m p = .ok t') :
    rootMethodsClean t' := by
  cases parts with
  | nil => cases Except.ok.inj h; exact hP
  | cons c rest =>
    by_cases hc : c = "methods"
    · subst hc
      rw [putPath_cons_eval] at h
      by_cases hf : furtherEmpty rest
      · rw [if_pos hf] at h
        cases hv : ensuredChildVal es "methods" with
        | leaf a => rw [hv] at h; cases h
        | dict vd ves =>
          have hves := rmc_ensuredChildVal b es hP vd ves hv
          rw [hv] at h
          dsimp only at h
          cases hms : ves.lookup (.strK "methods") with
          | none =>
            rw [hms] at h
            dsimp only at h
            by_cases hvd : vd = true
            · subst hvd
              rw [if_pos rfl] at h
              cases Except.ok.inj h
              dsimp only [rootMethodsClean]
              rw [Entries.lookup_set, if_pos rfl]
              intro h2
              rw [Entries.lookup_set_ne _ _ _ _ (by simp)]
              exact hves h2
            · have : vd = false := by cases vd <;> simp_all
              subst this
              rw [if_neg (by simp)] at h
              cases h
          | some w =>
            rw [hms] at h
            cases w with
            | leaf a => cases h
            | dict md ms =>
              dsimp only at h
              cases Except.ok.inj h
              dsimp only [rootMethodsClean]
              rw [Entries.lookup_set, if_pos rfl]
              intro h2
              rw [Entries.lookup_set_ne _ _ _ _ (by simp)]
              exact hves h2
      · rw [if_neg hf] at h
        cases hrec : putPath (ensuredChildVal es "methods") rest m p with
        | error e => rw [hrec] at h; cases h
        | ok v2 =>
          rw [hrec] at h
          dsimp only at h
          cases Except.ok.inj h
          cases hv : ensuredChildVal es "methods" with
          | leaf a => rw [hv] at hrec; simp [putPath] at hrec
          | dict vd ves =>
            have hves := rmc_ensuredChildVal b es hP vd ves hv
            rw [hv] at hrec
            rcases putPath_top_methK rest vd ves m p v2 hrec with ⟨ves', hv2, hlook⟩
            subst hv2
            dsimp only [rootMethodsClean]
            rw [Entries.lookup_set, if_pos rfl]
            intro h2
            rw [hlook h2]
            exact hves h2
    · rcases putPath_cons_ok_shape b es c rest m p t' h with ⟨X, hX⟩
      subst hX
      dsimp only [rootMethodsClean]
      rw [Entries.lookup_set_ne _ _ _ _ (by simpa using Ne.symm hc),
        ensureChild_lookup_ne _ _ _ (by simpa using Ne.symm hc)]
      dsimp only [rootMethodsClean] at hP
      exact hP

/-- Root-`'methods'` cleanliness of every reachable result map. -/
theorem rmc_putList : ∀ (rs : List ApiTestResult) (M M' : TestExecutionResultMap),
    rootMethodsClean M.map → M.putList rs = .ok M' → rootMethodsClean M'.map
  | [], M, M', hP, h => by
    unfold TestExecutionResultMap.putList at h
    cases Except.ok.inj h
    exact hP
  | r :: rest, M, M', hP, h => by
    unfold TestExecutionResultMap.putList TestExecutionResultMap.put at h
    cases hM : M.map with
    | leaf a =>
      rw [hM] at hP
      dsimp only [rootMethodsClean] at hP
    | dict b es =>
      rw [hM] at h hP
      cases hput : putPath (.dict b es) (pySplit r.sample.name) r.sample.http_method r with
      | error e => rw [hput] at h; cases h
      | ok t2 =>
        rw [hput] at h
        dsimp only at h
        exact rmc_putList rest ⟨t2⟩ M' (rmc_putPath _ _ _ _ _ _ hP hput) h

/-- On a root whose `'methods'` entry is clean, a single-segment query
resolves no parent. -/
theorem get_single_of_rmc {α : Type} (b : Bool) (es : Entries α) (x : String)
    (hP : rootMethodsClean (.dict b es)) :
    get_parent_test_result (.dict b es) [x] none = .ok none := by
  rw [get_parent_cons_def]
  dsimp only [rootMethodsClean] at hP
  cases hl : es.lookup (.strK "methods") with
  | none =>
    simp only [Option.getD_none, Entries.lookup_nil]
    cases hnd : es.lookup (.strK x) with
    | none => rfl
    | some nd =>
      dsimp only
      by_cases ht : nd.truthy = false
      · rw [if_pos ht]
      · rw [if_neg ht]
        rfl
  | some w =>
    rw [hl] at hP
    cases w with
    | leaf a => dsimp only at hP
    | dict wb wes =>
      dsimp only at hP
      simp only [Option.getD_some]
      rw [hP .post]
      cases hnd : es.lookup (.strK x) with
      | none => rfl
      | some nd =>
        dsimp only
        by_cases ht : nd.truthy = false
        · rw [if_pos ht]
        · rw [if_neg ht]
          rfl

/-- Claim C7: `get_parent_body` yields `{}` whenever there is no ancestor
result — in particular for every top-level (single-segment) sample on every
reachable map — and whenever the resolved ancestor result has no body. -/
theorem claim_C7 :
    (∀ (rs : List ApiTestResult) (M : TestExecutionResultMap) (s : CodeSample) (x : String),
        TestExecutionResultMap.empty.putList rs = .ok M → pySplit s.name = [x] →
        M.get_parent_result s = .ok none ∧ M.get_parent_body s = .ok []) ∧
    (∀ (M : TestExecutionResultMap) (s : CodeSample),
        M.get_parent_result s = .ok none → M.get_parent_body s = .ok []) ∧
    (∀ (M : TestExecutionResultMap) (s : CodeSample) (r : ApiTestResult),
        M.get_parent_result s = .ok (some (.leaf r)) → r.json_body = none →
        M.get_parent_body s = .ok []) := by
  refine ⟨?_, ?_, ?_⟩
  · intro rs M s x hput hps
    have hP : rootMethodsClean M.map :=
      rmc_putList rs TestExecutionResultMap.empty M trivial hput
    cases hM : M.map with
    | leaf a =>
      rw [hM] at hP
      dsimp only [rootMethodsClean] at hP
    | dict b es =>
      rw [hM] at hP
      have hres : M.get_parent_result s = .ok none := by
        unfold TestExecutionResultMap.get_parent_result
        rw [hM, hps]
        exact get_single_of_rmc b es x hP
      refine ⟨hres, ?_⟩
      unfold TestExecutionResultMap.get_parent_body
      rw [hres]
  · intro M s h
    unfold TestExecutionResultMap.get_parent_body
    rw [h]
  · intro M s r h hb
    unfold TestExecutionResultMap.get_parent_body
    rw [h]
    simp [hb]

/-- Witness for C7: one record at `a/b`, queried for the top-level sample
`top`. -/
theorem claim_C7_wit :
    TestExecutionResultMap.get_parent_result ⟨.dict false (.cons (.strK "a")
        (.dict true (.cons (.strK "b") (.dict true (.cons (.strK "methods")
          (.dict false (.cons (.methK .post) (.leaf ⟨⟨.python, "a/b", .post⟩, none⟩) .nil))
          .nil)) .nil)) .nil)⟩ ⟨.python, "top", .get⟩ = .ok none ∧
    TestExecutionResultMap.get_parent_body ⟨.dict false (.cons (.strK "a")
        (.dict true (.cons (.strK "b") (.dict true (.cons (.strK "methods")
          (.dict false (.cons (.methK .post) (.leaf ⟨⟨.python, "a/b", .post⟩, none⟩) .nil))
          .nil)) .nil)) .nil)⟩ ⟨.python, "top", .get⟩ = .ok [] :=
  claim_C7.1 [⟨⟨.python, "a/b", .post⟩, none⟩] ⟨.dict false (.cons (.strK "a")
      (.dict true (.cons (.strK "b") (.dict true (.cons (.strK "methods")
        (.dict false (.cons (.methK .post) (.leaf ⟨⟨.python, "a/b", .post⟩, none⟩) .nil))
        .nil)) .nil)) .nil)⟩ ⟨.python, "top", .get⟩ "top" rfl rfl

/-! ## Claim C10: samples under a `'methods'` segment are never emitted -/

@[simp] theorem sort_dict_nil {α : Type} (b : Bool) :
    sort_samples (.dict b (.nil : Entries α)) = .ok [] := rfl

theorem furtherEmpty_clean (rest : List String) (hf : furtherEmpty rest = true) :
    ∀ seg ∈ rest, seg ≠ "methods" := by
  cases rest with
  | nil => simp
  | cons s r =>
    cases r with
    | nil =>
      simp only [furtherEmpty_single, beq_iff_eq] at hf
      subst hf
      simp
    | cons s2 r2 => simp at hf

/-- The child recursion ignores writes at the `'methods'` key. -/
theorem sort_children_set_methods {α : Type} (es : Entries α) (w : PyObj α) :
    sort_children (es.set (.strK "methods") w) = sort_children es := by
  induction es using Entries.inductionOn with
  | hnil => simp [sort_children_cons_def]
  | hcons k v rest ih =>
    rw [Entries.set_cons]
    by_cases hk : (PyKey.strK "methods") = k
    · rw [if_pos hk, sort_children_cons_def, sort_children_cons_def, if_pos hk.symm,
        if_pos hk.symm]
    · rw [if_neg hk, sort_children_cons_def, sort_children_cons_def,
        if_neg (fun he => hk he.symm), if_neg (fun he => hk he.symm), ih]

/-- The child recursion is unaffected by the `ensureChild` guard at the
`'methods'` key. -/
theorem sort_children_ensure_methods {α : Type} (es : Entries α) :
    sort_children (ensureChild es "methods") = sort_children es := by
  unfold ensureChild
  split
  · rfl
  · exact sort_children_set_methods es _

/-- Replacing the value at one existing non-`'methods'` key changes the child
recursion's output only inside that child's block. -/
theorem sort_children_replace {α : Type} (P : PyObj α → Prop) :
    ∀ (es : Entries α) (c : String) (V X : PyObj α) (outV outX cs' : List (PyObj α)),
      c ≠ "methods" → es.lookup (.strK c) = some V →
      sort_samples V = .ok outV → sort_samples X = .ok outX →
      (∀ x ∈ outX, x ∈ outV ∨ P x) →
      sort_children (es.set (.strK c) X) = .ok cs' →
      ∃ cs, sort_children es = .ok cs ∧ ∀ x ∈ cs', x ∈ cs ∨ P x
  | .nil, c, V, X, outV, outX, cs', hc, hl, hV, hX, hmap, hs => by simp at hl
  | .cons k w rest, c, V, X, outV, outX, cs', hc, hl, hV, hX, hmap, hs => by
    rw [Entries.lookup_cons] at hl
    rw [Entries.set_cons] at hs
    by_cases hk : (PyKey.strK c) = k
    · rw [if_pos hk] at hl hs
      cases Option.some.inj hl
      rw [sort_children_cons_def] at hs
      have hkm : ¬ k = .strK "methods" := by rw [← hk]; simp [hc]
      rw [if_neg hkm, hX] at hs
      dsimp only at hs
      cases hsr : sort_children rest with
      | error e => rw [hsr] at hs; cases hs
      | ok orest =>
        rw [hsr] at hs
        dsimp only at hs
        cases Except.ok.inj hs
        refine ⟨outV ++ orest, ?_, ?_⟩
        · rw [sort_children_cons_def, if_neg hkm, hV, hsr]
        · intro x hx
          rcases List.mem_append.mp hx with h1 | h2
          · rcases hmap x h1 with h3 | h3
            · exact Or.inl (List.mem_append.mpr (Or.inl h3))
            · exact Or.inr h3
          · exact Or.inl (List.mem_append.mpr (Or.inr h2))
    · rw [if_neg hk] at hl hs
      rw [sort_children_cons_def] at hs
      by_cases hkm : k = .strK "methods"
      · rw [if_pos hkm] at hs
        rcases sort_children_replace P rest c V X outV outX cs' hc hl hV hX hmap hs with
          ⟨cs, h1, h2⟩
        refine ⟨cs, ?_, h2⟩
        rw [sort_children_cons_def, if_pos hkm, h1]
      · rw [if_neg hkm] at hs
        cases hsw : sort_samples w with
        | error e => rw [hsw] at hs; cases hs
        | ok ow =>
          rw [hsw] at hs
          dsimp only at hs
          cases hsr : sort_children (rest.set (.strK c) X) with
          | error e => rw [hsr] at hs; cases hs
          | ok orest2 =>
            rw [hsr] at hs
            dsimp only at hs
            cases Except.ok.inj hs
            rcases sort_children_replace P rest c V X outV outX orest2 hc hl hV hX hmap hsr
              with ⟨crest, h1, h2⟩
            refine ⟨ow ++ crest, ?_, ?_⟩
            · rw [sort_children_cons_def, if_neg hkm, hsw, h1]
            · intro x hx
              rcases List.mem_append.mp hx with hA | hB
              · exact Or.inl (List.mem_append.mpr (Or.inl hA))
              · rcases h2 x hB with h3 | h3
                · exact Or.inl (List.mem_append.mpr (Or.inr h3))
                · exact Or.inr h3

/-- Appending a fresh non-`'methods'` child adds only that child's block to
the child recursion's output. -/
theorem sort_children_app {α : Type} (P : PyObj α → Prop) :
    ∀ (es : Entries α) (c : String) (X : PyObj α) (outX cs' : List (PyObj α)),
      c ≠ "methods" → es.lookup (.strK c) = none →
      sort_samples X = .ok outX → (∀ x ∈ outX, P x) →
      sort_children (es.set (.strK c) X) = .ok cs' →
      ∃ cs, sort_children es = .ok cs ∧ ∀ x ∈ cs', x ∈ cs ∨ P x
  | .nil, c, X, outX, cs', hc, hl, hX, hall, hs => by
    rw [Entries.set_nil, sort_children_cons_def, if_neg (by simp [hc]), hX] at hs
    dsimp only at hs
    cases Except.ok.inj hs
    refine ⟨[], rfl, fun x hx => ?_⟩
    rcases List.mem_append.mp hx with h1 | h2
    · exact Or.inr (hall x h1)
    · simp at h2
  | .cons k w rest, c, X, outX, cs', hc, hl, hX, hall, hs => by
    rw [Entries.lookup_cons] at hl
    rw [Entries.set_cons] at hs
    by_cases hk : (PyKey.strK c) = k
    · rw [if_pos hk] at hl
      cases hl
    · rw [if_neg hk] at hl hs
      rw [sort_children_cons_def] at hs
      by_cases hkm : k = .strK "methods"
      · rw [if_pos hkm] at hs
        rcases sort_children_app P rest c X outX cs' hc hl hX hall hs with ⟨cs, h1, h2⟩
        refine ⟨cs, ?_, h2⟩
        rw [sort_children_cons_def, if_pos hkm, h1]
      · rw [if_neg hkm] at hs
        cases hsw : sort_samples w with
        | error e => rw [hsw] at hs; cases hs
        | ok ow =>
          rw [hsw] at hs
          dsimp only at hs
          cases hsr : sort_children (rest.set (.strK c) X) with
          | error e => rw [hsr] at hs; cases hs
          | ok orest2 =>
            rw [hsr] at hs
            dsimp only at hs
            cases Except.ok.inj hs
            rcases sort_children_app P rest c X outX orest2 hc hl hX hall hsr with
              ⟨crest, h1, h2⟩
            refine ⟨ow ++ crest, ?_, ?_⟩
            · rw [sort_children_cons_def, if_neg hkm, hsw, h1]
            · intro x hx
              rcases List.mem_append.mp hx with hA | hB
              · exact Or.inl (List.mem_append.mpr (Or.inl hA))
              · rcases h2 x hB with h3 | h3
                · exact Or.inl (List.mem_append.mpr (Or.inr h3))
                · exact Or.inr h3

/-- An element of a payload-map slot after a terminal write is either the
written payload or an element of the same slot before the write. -/
theorem mem_optList_set_slot {α : Type} (ms0 : Entries α) (m hm : HttpMethod) (p : α)
    (x : PyObj α)
    (hx : x ∈ optList ((ms0.set (.methK m) (.leaf p)).lookup (.methK hm))) :
    x ∈ optList (ms0.lookup (.methK hm)) ∨ x = .leaf p := by
  rw [Entries.lookup_set] at hx
  by_cases he : (PyKey.methK hm) = (.methK m)
  · rw [if_pos he] at hx
    right
    simpa [optList] using hx
  · rw [if_neg he] at hx
    exact Or.inl hx

/-- Sorting a node whose `'methods'` payload map just received one terminal
write: every emitted element was already emitted before the write, except
possibly the written payload itself. -/
theorem sort_terminal_write {α : Type} (vd : Bool) (ves : Entries α) (md0 : Bool)
    (ms0 : Entries α) (m : HttpMethod) (p : α) (outX : List (PyObj α))
    (hgd : (ves.lookup (.strK "methods")).getD (.dict false .nil) = .dict md0 ms0)
    (hsX : sort_samples (.dict vd (ves.set (.strK "methods")
      (.dict md0 (ms0.set (.methK m) (.leaf p))))) = .ok outX) :
    ∃ outV, sort_samples (.dict vd ves) = .ok outV ∧
      ∀ x ∈ outX, x ∈ outV ∨ x = .leaf p := by
  rw [sort_samples_dict_def, Entries.lookup_set, if_pos rfl] at hsX
  simp only [Option.getD_some] at hsX
  rw [sort_children_set_methods] at hsX
  cases hsc : sort_children ves with
  | error e => rw [hsc] at hsX; cases hsX
  | ok cshared =>
    rw [hsc] at hsX
    dsimp only at hsX
    cases Except.ok.inj hsX
    refine ⟨optList (ms0.lookup (.methK .post)) ++ optList (ms0.lookup (.methK .get)) ++
        optList (ms0.lookup (.methK .put)) ++ cshared ++
        optList (ms0.lookup (.methK .delete)), ?_, ?_⟩
    · rw [sort_samples_dict_def, hgd]
      dsimp only
      rw [hsc]
    · intro x hx
      simp only [List.mem_append] at hx ⊢
      rcases hx with ((((h1 | h1) | h1) | h1) | h1)
      · rcases mem_optList_set_slot ms0 m .post p x h1 with h2 | h2
        · exact Or.inl (Or.inl (Or.inl (Or.inl (Or.inl h2))))
        · exact Or.inr h2
      · rcases mem_optList_set_slot ms0 m .get p x h1 with h2 | h2
        · exact Or.inl (Or.inl (Or.inl (Or.inl (Or.inr h2))))
        · exact Or.inr h2
      · rcases mem_optList_set_slot ms0 m .put p x h1 with h2 | h2
        · exact Or.inl (Or.inl (Or.inl (Or.inr h2)))
        · exact Or.inr h2
      · exact Or.inl (Or.inl (Or.inr h1))
      · rcases mem_optList_set_slot ms0 m .delete p x h1 with h2 | h2
        · exact Or.inl (Or.inr h2)
        · exact Or.inr h2

/-- Shape of a successful insert whose first segment is `'methods'`: the write
goes entirely inside the node stored at the string key `'methods'`, and that
node's `HttpMethod`-keyed entries are unchanged. -/
theorem putPath_methods_case {α : Type} (b : Bool) (es : Entries α) (rest : List String)
    (m : HttpMethod) (p : α) (t' : PyObj α)
    (h : putPath (.dict b es) ("methods" :: rest) m p = .ok t') :
    ∃ xb xes vd ves, ensuredChildVal es "methods" = .dict vd ves ∧
      t' = .dict b ((ensureChild es "methods").set (.strK "methods") (.dict xb xes)) ∧
      ∀ h2 : HttpMethod, xes.lookup (.methK h2) = ves.lookup (.methK h2) := by
  rw [putPath_cons_eval] at h
  by_cases hf : furtherEmpty rest
  · rw [if_pos hf] at h
    cases hv : ensuredChildVal es "methods" with
    | leaf a => rw [hv] at h; cases h
    | dict vd ves =>
      rw [hv] at h
      dsimp only at h
      cases hms : ves.lookup (.strK "methods") with
      | none =>
        rw [hms] at h
        dsimp only at h
        by_cases hvd : vd = true
        · subst hvd
          rw [if_pos rfl] at h
          cases Except.ok.inj h
          exact ⟨true, _, true, ves, rfl, rfl,
            fun h2 => Entries.lookup_set_ne _ _ _ _ (by simp)⟩
        · have hvd2 : vd = false := by cases vd <;> simp_all
          subst hvd2
          rw [if_neg (by simp)] at h
          cases h
      | some w =>
        rw [hms] at h
        cases w with
        | leaf a => cases h
        | dict md ms =>
          dsimp only at h
          cases Except.ok.inj h
          exact ⟨vd, _, vd, ves, rfl, rfl,
            fun h2 => Entries.lookup_set_ne _ _ _ _ (by simp)⟩
  · rw [if_neg hf] at h
    cases hrec : putPath (ensuredChildVal es "methods") rest m p with
    | error e => rw [hrec] at h; cases h
    | ok v2 =>
      rw [hrec] at h
      dsimp only at h
      cases Except.ok.inj h
      cases hv : ensuredChildVal es "methods" with
      | leaf a => rw [hv] at hrec; exact absurd hrec (by simp [putPath])
      | dict vd ves =>
        rw [hv] at hrec
        rcases putPath_top_methK rest vd ves m p v2 hrec with ⟨es2, hes2, hlk⟩
        subst hes2
        exact ⟨vd, es2, vd, ves, rfl, rfl, hlk⟩

/-- Writing back, at the string key `'methods'`, any dict with the same
`HttpMethod`-keyed entries as `ensuredChildVal es "methods"` does not change
the output of `_sort_samples`. -/
theorem sortEq_setMethods {α : Type} (b vd xb : Bool) (es ves xes : Entries α)
    (hv : ensuredChildVal es "methods" = .dict vd ves)
    (hlk : ∀ h2 : HttpMethod, xes.lookup (.methK h2) = ves.lookup (.methK h2)) :
    sort_samples (.dict b ((ensureChild es "methods").set (.strK "methods")
      (.dict xb xes))) = sort_samples (.dict b es) := by
  rw [sort_samples_dict_def, sort_samples_dict_def, Entries.lookup_set, if_pos rfl]
  simp only [Option.getD_some]
  rw [sort_children_set_methods, sort_children_ensure_methods,
    hlk .post, hlk .get, hlk .put, hlk .delete]
  unfold ensuredChildVal at hv
  cases hl : es.lookup (.strK "methods") with
  | none =>
    rw [hl, if_neg (by simp [truthyOpt])] at hv
    injection hv with h1 h2
    subst h2
    rfl
  | some w =>
    rw [hl] at hv
    cases w with
    | leaf a =>
      rw [if_pos (by simp [truthyOpt])] at hv
      simp only [Option.getD_some] at hv
      cases hv
    | dict ob oes =>
      cases oes with
      | nil =>
        rw [if_neg (by simp [truthyOpt])] at hv
        injection hv with h1 h2
        subst h2
        rfl
      | cons k0 v0 r0 =>
        rw [if_pos (by simp [truthyOpt])] at hv
        simp only [Option.getD_some] at hv
        injection hv with h1 h2
        subst h2
        rfl

/-- Assembling `_sort_samples` around one child rewrite: if sorting succeeds
after the insert step wrote `X` at the non-`'methods'` key `c`, and every
element emitted for `X` was already emitted for the pre-existing (or fresh)
child value, except possibly the inserted payload, then the same holds for
the whole node. -/
theorem put_sort_assemble {α : Type} (b : Bool) (es : Entries α) (c : String)
    (X : PyObj α) (p : α) (PP : Prop) (hc : c ≠ "methods") (out' : List (PyObj α))
    (hs' : sort_samples (.dict b ((ensureChild es c).set (.strK c) X)) = .ok out')
    (hVX : ∀ outX, sort_samples X = .ok outX →
        ∃ outV, sort_samples (ensuredChildVal es c) = .ok outV ∧
          ∀ x ∈ outX, x ∈ outV ∨ (x = .leaf p ∧ PP)) :
    ∃ out, sort_samples (.dict b es) = .ok out ∧
      ∀ x ∈ out', x ∈ out ∨ (x = .leaf p ∧ PP) := by
  have hkm : (PyKey.strK "methods") ≠ (.strK c) := by simpa using Ne.symm hc
  rw [sort_samples_dict_def, Entries.lookup_set_ne _ _ _ _ hkm,
    ensureChild_lookup_ne _ _ _ hkm] at hs'
  cases hgd : (es.lookup (.strK "methods")).getD (.dict false .nil) with
  | leaf a => rw [hgd] at hs'; cases hs'
  | dict mb msR =>
    rw [hgd] at hs'
    dsimp only at hs'
    cases hsc : sort_children ((ensureChild es c).set (.strK c) X) with
    | error e => rw [hsc] at hs'; cases hs'
    | ok cs' =>
      rw [hsc] at hs'
      dsimp only at hs'
      cases Except.ok.inj hs'
      have hlX : ((ensureChild es c).set (.strK c) X).lookup (.strK c) = some X := by
        rw [Entries.lookup_set, if_pos rfl]
      rcases sort_children_block _ c X cs' hc hlX hsc with ⟨outX, pr, su, hsX, hsp⟩
      rcases hVX outX hsX with ⟨outV, hsV, hmap⟩
      have hrepl : ∃ cs, sort_children es = .ok cs ∧
          ∀ x ∈ cs', x ∈ cs ∨ (x = .leaf p ∧ PP) := by
        by_cases htr : truthyOpt (es.lookup (.strK c)) = true
        · have hE1 : ensureChild es c = es := ensureChild_of_truthy _ _ htr
          rw [hE1] at hsc
          cases hlc : es.lookup (.strK c) with
          | none => rw [hlc] at htr; exact absurd htr (by simp [truthyOpt])
          | some V0 =>
            have hev : ensuredChildVal es c = V0 := by
              unfold ensuredChildVal
              rw [if_pos htr, hlc]
              rfl
            rw [hev] at hsV
            exact sort_children_replace _ es c V0 X outV outX cs' hc hlc hsV hsX hmap hsc
        · have hE1 : ensureChild es c = es.set (.strK c) (.dict true .nil) := if_neg htr
          have hev : ensuredChildVal es c = .dict true .nil := if_neg htr
          rw [hev, sort_dict_nil] at hsV
          have houtV : outV = [] := (Except.ok.inj hsV).symm
          subst houtV
          have hall : ∀ x ∈ outX, x = .leaf p ∧ PP := by
            intro x hx
            rcases hmap x hx with h1 | h1
            · simp at h1
            · exact h1
          rw [hE1, Entries.set_set] at hsc
          cases hlc : es.lookup (.strK c) with
          | none => exact sort_children_app _ es c X outX cs' hc hlc hsX hall hsc
          | some V0 =>
            cases V0 with
            | leaf a =>
              rw [hlc] at htr
              exact absurd (by simp [truthyOpt]) htr
            | dict b0 ves0 =>
              cases ves0 with
              | cons k0 v0 r0 =>
                rw [hlc] at htr
                exact absurd (by simp [truthyOpt]) htr
              | nil =>
                exact sort_children_replace _ es c (.dict b0 .nil) X [] outX cs' hc hlc
                  (sort_dict_nil b0) hsX (fun x hx => Or.inr (hall x hx)) hsc
      rcases hrepl with ⟨cs, hcs, hmem⟩
      refine ⟨optList (msR.lookup (.methK .post)) ++ optList (msR.lookup (.methK .get)) ++
          optList (msR.lookup (.methK .put)) ++ cs ++
          optList (msR.lookup (.methK .delete)), ?_, ?_⟩
      · rw [sort_samples_dict_def, hgd]
        dsimp only
        rw [hcs]
      · intro x hx
        simp only [List.mem_append] at hx ⊢
        rcases hx with ((((h1 | h1) | h1) | h1) | h1)
        · exact Or.inl (Or.inl (Or.inl (Or.inl (Or.inl h1))))
        · exact Or.inl (Or.inl (Or.inl (Or.inl (Or.inr h1))))
        · exact Or.inl (Or.inl (Or.inl (Or.inr h1)))
        · rcases hmem x h1 with h2 | h2
          · exact Or.inl (Or.inl (Or.inr h2))
          · exact Or.inr h2
        · exact Or.inl (Or.inr h1)

/-- A successful insert adds at most one emitted element to the output of
`_sort_samples` — the inserted payload itself — and only when no segment of
its path equals the literal string `'methods'`; every other emitted element
was already emitted before the insert. -/
theorem put_out_sub {α : Type} :
    ∀ (parts : List String) (b : Bool) (es : Entries α) (m : HttpMethod) (p : α)
      (t' : PyObj α) (out' : List (PyObj α)),
      putPath (.dict b es) parts m p = .ok t' → sort_samples t' = .ok out' →
      ∃ out, sort_samples (.dict b es) = .ok out ∧
        ∀ x ∈ out', x ∈ out ∨ (x = .leaf p ∧ ∀ seg ∈ parts, seg ≠ "methods")
  | [], b, es, m, p, t', out', h, hs' => by
    cases Except.ok.inj h
    exact ⟨out', hs', fun x hx => Or.inl hx⟩
  | c :: rest, b, es, m, p, t', out', h, hs' => by
    by_cases hc : c = "methods"
    · subst hc
      rcases putPath_methods_case b es rest m p t' h with ⟨xb, xes, vd, ves, hv, ht, hlk⟩
      subst ht
      refine ⟨out', ?_, fun x hx => Or.inl hx⟩
      rw [← sortEq_setMethods b vd xb es ves xes hv hlk]
      exact hs'
    · rw [putPath_cons_eval] at h
      by_cases hf : furtherEmpty rest
      · rw [if_pos hf] at h
        have hPP : ∀ seg ∈ c :: rest, seg ≠ "methods" := by
          intro seg hseg
          rcases List.mem_cons.mp hseg with rfl | hseg2
          · exact hc
          · exact furtherEmpty_clean rest hf seg hseg2
        cases hv : ensuredChildVal es c with
        | leaf a => rw [hv] at h; cases h
        | dict vd ves =>
          rw [hv] at h
          dsimp only at h
          cases hms : ves.lookup (.strK "methods") with
          | none =>
            rw [hms] at h
            dsimp only at h
            by_cases hvd : vd = true
            · subst hvd
              rw [if_pos rfl] at h
              cases Except.ok.inj h
              refine put_sort_assemble b es c _ p _ hc out' hs' ?_
              intro outX hsX
              rcases sort_terminal_write true ves false .nil m p outX (by simp [hms]) hsX
                with ⟨outV, hsV, hmap⟩
              rw [hv]
              refine ⟨outV, hsV, fun x hx => ?_⟩
              rcases hmap x hx with h1 | h1
              · exact Or.inl h1
              · exact Or.inr ⟨h1, hPP⟩
            · have hvd2 : vd = false := by cases vd <;> simp_all
              subst hvd2
              rw [if_neg (by simp)] at h
              cases h
          | some w =>
            rw [hms] at h
            cases w with
            | leaf a => cases h
            | dict md ms =>
              dsimp only at h
              cases Except.ok.inj h
              refine put_sort_assemble b es c _ p _ hc out' hs' ?_
              intro outX hsX
              rcases sort_terminal_write vd ves md ms m p outX (by simp [hms]) hsX
                with ⟨outV, hsV, hmap⟩
              rw [hv]
              refine ⟨outV, hsV, fun x hx => ?_⟩
              rcases hmap x hx with h1 | h1
              · exact Or.inl h1
              · exact Or.inr ⟨h1, hPP⟩
      · rw [if_neg hf] at h
        cases hrec : putPath (ensuredChildVal es c) rest m p with
        | error e => rw [hrec] at h; cases h
        | ok v2 =>
          rw [hrec] at h
          dsimp only at h
          cases Except.ok.inj h
          refine put_sort_assemble b es c v2 p _ hc out' hs' ?_
          intro outX hsX
          cases hv : ensuredChildVal es c with
          | leaf a => rw [hv] at hrec; exact absurd hrec (by simp [putPath])
          | dict vd ves =>
            rw [hv] at hrec
            rcases put_out_sub rest vd ves m p v2 outX hrec hsX with ⟨outV, hsV, hmap⟩
            refine ⟨outV, hsV, fun x hx => ?_⟩
            rcases hmap x hx with h1 | h1
            · exact Or.inl h1
            · refine Or.inr ⟨h1.1, ?_⟩
              intro seg hseg
              rcases List.mem_cons.mp hseg with rfl | hseg2
              · exact hc
              · exact h1.2 seg hseg2

/-- Lifting `put_out_sub` over a sequence of successful `put` calls: every
element emitted after the sequence was either already emitted before it, or
is the payload leaf of one of the inserted samples whose key path avoids the
segment `'methods'`. -/
theorem putList_out_sub :
    ∀ (ss : List CodeSample) (t t' : CodeSamplesTree) (out' : List (PyObj CodeSample)),
      t.putList ss = .ok t' → t'.list_sorted_samples = .ok out' →
      ∃ out, t.list_sorted_samples = .ok out ∧
        ∀ x ∈ out', x ∈ out ∨
          ∃ s ∈ ss, x = .leaf s ∧ ∀ seg ∈ pySplit (sampleKey s), seg ≠ "methods"
  | [], t, t', out', hp, hs => by
    cases Except.ok.inj hp
    exact ⟨out', hs, fun x hx => Or.inl hx⟩
  | s0 :: rest, t, t', out', hp, hs => by
    simp only [CodeSamplesTree.putList] at hp
    cases hput0 : t.put s0 with
    | error e => rw [hput0] at hp; cases hp
    | ok t1 =>
      rw [hput0] at hp
      rcases putList_out_sub rest t1 t' out' hp hs with ⟨out1, hs1, hmap1⟩
      unfold CodeSamplesTree.put at hput0
      cases hpp : putPath t.tree (pySplit (sampleKey s0)) s0.http_method s0 with
      | error e => rw [hpp] at hput0; cases hput0
      | ok t2 =>
        rw [hpp] at hput0
        dsimp only at hput0
        cases Except.ok.inj hput0
        cases ht : t.tree with
        | leaf a => rw [ht] at hpp; exact absurd hpp (by simp [putPath])
        | dict b es =>
          rw [ht] at hpp
          rcases put_out_sub (pySplit (sampleKey s0)) b es s0.http_method s0 t2 out1 hpp hs1
            with ⟨out, hsort, hmap⟩
          refine ⟨out, ?_, ?_⟩
          · show sort_samples t.tree = .ok out
            rw [ht]
            exact hsort
          · intro x hx
            rcases hmap1 x hx with h1 | h1
            · rcases hmap x h1 with h2 | h2
              · exact Or.inl h2
              · exact Or.inr ⟨s0, by simp, h2.1, h2.2⟩
            · rcases h1 with ⟨s1, hmem, hx1⟩
              exact Or.inr ⟨s1, List.mem_cons_of_mem _ hmem, hx1⟩

/-- Claim C10: for every tree built from `empty` by a sequence of successful
`put` calls, a sample whose language-prefixed key path contains a segment
equal to the literal string `'methods'` is never emitted by
`list_sorted_samples`: its payload leaf is absent from the output. -/
theorem claim_C10 (ss : List CodeSample) (t : CodeSamplesTree)
    (out : List (PyObj CodeSample)) (s : CodeSample)
    (hput : CodeSamplesTree.empty.putList ss = .ok t)
    (hsort : t.list_sorted_samples = .ok out)
    (hdirty : "methods" ∈ pySplit (sampleKey s)) :
    PyObj.leaf s ∉ out := by
  intro hmem
  rcases putList_out_sub ss CodeSamplesTree.empty t out hput hsort with ⟨out0, hs0, hmap⟩
  have hout0 : out0 = [] := by
    have he : CodeSamplesTree.empty.list_sorted_samples =
        .ok ([] : List (PyObj CodeSample)) := rfl
    rw [he] at hs0
    exact (Except.ok.inj hs0).symm
  rcases hmap _ hmem with h1 | h1
  · rw [hout0] at h1
    simp at h1
  · rcases h1 with ⟨s1, _, heq, hclean⟩
    injection heq with he
    subst he
    exact hclean "methods" hdirty rfl

/-- Witness for claim C10 at a concrete input: after inserting the sample
named `x`, the sample named `x/methods` (whose key path splits as
`[pythonx, methods]`) is not among the emitted leaves. -/
theorem claim_C10_wit :
    PyObj.leaf (⟨.python, "x/methods", .get⟩ : CodeSample) ∉
      [PyObj.leaf (⟨.python, "x", .post⟩ : CodeSample)] :=
  claim_C10 [⟨.python, "x", .post⟩]
    ⟨.dict false (.cons (.strK "pythonx") (.dict true (.cons (.strK "methods")
      (.dict false (.cons (.methK .post) (.leaf ⟨.python, "x", .post⟩) .nil)) .nil)) .nil)⟩
    [PyObj.leaf ⟨.python, "x", .post⟩] ⟨.python, "x/methods", .get⟩ rfl rfl (by decide)
